import Mathlib

/-!
Verification development for the sec-scanner repository (src/graph_js.py and
src/graph_php.py).

The repository contains two structurally parallel analyzers:

* `JSAnalyzer` (src/graph_js.py): a Python driver that writes an embedded
  Node.js script whose `analyzeFile` scans each source line with regexes
  (`classRegex`, `functionRegex`, `callRegex`, `newRegex`), tracks the
  enclosing class/function/method plus a brace counter, and returns
  classes/methods/functions/edges.  The Python side (`JSAnalyzer.analyze` and
  `JSAnalyzer._build_graph`) builds a node index keyed by id, appends all
  edges, and bumps in/out degrees for endpoints present in the index.

* `PHPAnalyzer` (src/graph_php.py): the same Python driver shape around an
  embedded PHP script whose `analyzeFile` walks `token_get_all` output,
  dispatching on T_NAMESPACE / T_CLASS / T_FUNCTION / T_NEW / T_DOUBLE_COLON /
  T_OBJECT_OPERATOR, with a context-reset block guarded by
  `$tokens[$i] === '}'`.

This file gives a shallow embedding of those pieces translated from the
source, and proves properties of the embedding.  Strings are modelled as
`List Char` where the JS code scans text character by character; PHP tokens
are modelled as an inductive mirroring the array/string tokens of
`token_get_all`.  Dead pieces of the source that can never influence the
returned nodes/edges (the JS `result.imports`/`result.exports` lists and the
unused `methodRegex`, the PHP `$useStatements` map) are noted in comments and
not carried through the embedding.
-/

namespace SecScanner

/-! ### Shared record shapes

`EdgeRec` mirrors the per-file edge objects pushed by both embedded scripts
(`\x7bsource, target, type, line\x7d`); `DeclRec` mirrors the
name/line payload of a declaration entry. -/

structure EdgeRec where
  source : String
  target : String
  type : String
  line : Nat
deriving DecidableEq

structure DeclRec where
  name : String
  line : Nat
deriving DecidableEq

/-! ### JS analyzer: embedded Node.js `analyzeFile` (src/graph_js.py lines 72-233)

The script splits the file into lines and runs four regexes per line:
  classRegex    = /class\s+([\w]+)(?:\s+extends\s+([\w]+))?/g
  functionRegex = /(?:export\s+)?(?:async\s+)?function\s+([\w]+)\s*\(/g
  callRegex     = /([\w]+)\s*\(/g
  newRegex      = /new\s+([\w]+)\s*\(/g
(`methodRegex` is declared in the script but never executed.)
We embed the matchers directly: `\w` is `wordChar`, `\s` is `jsWs`
(the ASCII whitespace class; lines never contain a newline since the file
was split on them). -/

def wordChar (c : Char) : Bool := c.isAlphanum || c = '_'

def jsWs (c : Char) : Bool :=
  c = ' ' || c = '\t' || c = '\n' || c = '\r' || c = '\x0b' || c = '\x0c'

/-- Maximal run of `\w` characters at the front (greedy `[\w]+`),
returning the run and the remainder. -/
def takeWord : List Char → List Char × List Char
  | [] => ([], [])
  | c :: cs =>
    if wordChar c then
      let p := takeWord cs
      (c :: p.1, p.2)
    else ([], c :: cs)

/-- Greedy `\s*`. -/
def skipWs : List Char → List Char
  | [] => []
  | c :: cs => if jsWs c then skipWs cs else c :: cs

/-- Match a literal character sequence at the front. -/
def dropLit : List Char → List Char → Option (List Char)
  | [], cs => some cs
  | _ :: _, [] => none
  | l :: ls, c :: cs => if c = l then dropLit ls cs else none

/-- One attempt of callRegex `([\w]+)\s*\(` at the current position:
a nonempty word run, optional whitespace, then a literal `(`.  Returns the
captured word and the text after the `(` (the regex lastIndex). -/
def tryCall (cs : List Char) : Option (List Char × List Char) :=
  let p := takeWord cs
  if p.1.isEmpty then none
  else
    match skipWs p.2 with
    | [] => none
    | c :: r => if c = '(' then some (p.1, r) else none

/-- One attempt of newRegex `new\s+([\w]+)\s*\(` at the current position. -/
def tryNew (cs : List Char) : Option (List Char × List Char) :=
  match dropLit ['n', 'e', 'w'] cs with
  | none => none
  | some r1 =>
    match r1 with
    | [] => none
    | c :: r2 =>
      if jsWs c then
        let p := takeWord (skipWs r2)
        if p.1.isEmpty then none
        else
          match skipWs p.2 with
          | [] => none
          | d :: r => if d = '(' then some (p.1, r) else none
      else none

/-- The optional extends group `(?:\s+extends\s+([\w]+))?` of classRegex. -/
def tryExt (cs : List Char) : Option (List Char × List Char) :=
  match cs with
  | [] => none
  | c :: r1 =>
    if jsWs c then
      match dropLit ['e', 'x', 't', 'e', 'n', 'd', 's'] (skipWs r1) with
      | none => none
      | some r2 =>
        match r2 with
        | [] => none
        | d :: r3 =>
          if jsWs d then
            let p := takeWord (skipWs r3)
            if p.1.isEmpty then none else some (p.1, p.2)
          else none
    else none

/-- One attempt of classRegex `class\s+([\w]+)(?:\s+extends\s+([\w]+))?`:
the greedy word capture cannot be shrunk by backtracking (the group starts
with `\s+`, and the character after a maximal word run is not a word
character), so the optional group either matches after the full run or the
match ends at the run. -/
def tryClass (cs : List Char) : Option ((List Char × Option (List Char)) × List Char) :=
  match dropLit ['c', 'l', 'a', 's', 's'] cs with
  | none => none
  | some r1 =>
    match r1 with
    | [] => none
    | c :: r2 =>
      if jsWs c then
        let p := takeWord (skipWs r2)
        if p.1.isEmpty then none
        else
          match tryExt p.2 with
          | some q => some ((p.1, some q.1), q.2)
          | none => some ((p.1, none), p.2)
      else none

/-- Optional literal-plus-`\s+` group such as `(?:export\s+)?`.  Taking the
group and not taking it are mutually exclusive at a fixed position (the
literal differs from `function`), so no backtracking is needed. -/
def tryOptLit (lit : List Char) (cs : List Char) : List Char :=
  match dropLit lit cs with
  | some (c :: r) => if jsWs c then skipWs r else cs
  | _ => cs

/-- One attempt of functionRegex
`(?:export\s+)?(?:async\s+)?function\s+([\w]+)\s*\(`. -/
def tryFunc (cs : List Char) : Option (List Char × List Char) :=
  let cs1 := tryOptLit ['e', 'x', 'p', 'o', 'r', 't'] cs
  let cs2 := tryOptLit ['a', 's', 'y', 'n', 'c'] cs1
  match dropLit ['f', 'u', 'n', 'c', 't', 'i', 'o', 'n'] cs2 with
  | none => none
  | some r1 =>
    match r1 with
    | [] => none
    | c :: r2 =>
      if jsWs c then
        let p := takeWord (skipWs r2)
        if p.1.isEmpty then none
        else
          match skipWs p.2 with
          | [] => none
          | d :: r => if d = '(' then some (p.1, r) else none
      else none

/-- Generic model of a JS `while ((m = regex.exec(line)) !== null)` loop over
a `/g` regex: search left to right; on a failed position advance one
character (updating a fold state, used to model `line.substring(0, m.index)`
lookbacks); on a match resume after the consumed text.  The fuel argument
only serves structural recursion; `length + 1` always suffices because each
step consumes at least one character. -/
def scanGo {α σ : Type} (tf : List Char → Option (α × List Char))
    (upd : σ → Char → σ) : Nat → σ → List Char → List (σ × α)
  | 0, _, _ => []
  | _ + 1, _, [] => []
  | fuel + 1, s, c :: rest =>
    match tf (c :: rest) with
    | some (w, r) => (s, w) :: scanGo tf upd fuel s r
    | none => scanGo tf upd fuel (upd s c) rest

/-- All callRegex matches of a line, each tagged with whether a `.` occurs in
the line before the match index (the source's
`line.substring(0, callMatch.index).includes('.')`; word characters,
whitespace and `(` are never `.`, so tracking the flag over skipped
characters is exact). -/
def callScan (cs : List Char) : List (Bool × List Char) :=
  scanGo tryCall (fun d c => d || (c == '.')) (cs.length + 1) false cs

/-- All newRegex matches of a line. -/
def newScan (cs : List Char) : List (List Char) :=
  (scanGo tryNew (fun _ _ => ()) (cs.length + 1) () cs).map Prod.snd

/-- All classRegex matches of a line: (class name, optional superclass). -/
def classScan (cs : List Char) : List (List Char × Option (List Char)) :=
  (scanGo tryClass (fun _ _ => ()) (cs.length + 1) () cs).map Prod.snd

/-- All functionRegex matches of a line. -/
def funcScan (cs : List Char) : List (List Char) :=
  (scanGo tryFunc (fun _ _ => ()) (cs.length + 1) () cs).map Prod.snd

/-- The per-file scan context of the embedded JS script:
`currentClass`, `currentFunction`, `currentMethod`, `inClass`, `braceCount`. -/
structure JSState where
  currentClass : Option String
  currentFunction : Option String
  currentMethod : Option String
  inClass : Bool
  braceCount : Int
deriving DecidableEq

def jsInit : JSState := ⟨none, none, none, false, 0⟩

/-- JS truthiness of the nullable string variables (`null` and the empty
string are falsy; captured names are nonempty word runs). -/
def jsTruthy : Option String → Bool
  | none => false
  | some s => !(s == "")

/-- JS `a || b` on nullable strings. -/
def jsOr (a b : Option String) : Option String := if jsTruthy a then a else b

/-- `const caller = currentMethod || currentFunction || currentClass`. -/
def jsCaller (st : JSState) : Option String :=
  jsOr st.currentMethod (jsOr st.currentFunction st.currentClass)

/-- String interpolation of a nullable variable (JS prints `null`). -/
def jsStr : Option String → String
  | some s => s
  | none => "null"

/-- Class entry pushed to `result.classes`
(`\x7bname, type:'class', line, extends\x7d`). -/
structure JSClassRec where
  name : String
  line : Nat
  extendsName : Option String
deriving DecidableEq

/-- The class-definition while loop (script lines 122-146): each match
pushes a class entry, sets `currentClass` and `inClass`, and pushes an
`extends` edge when the superclass group matched. -/
def jsClassSection (st : JSState) (n : Nat) :
    List (List Char × Option (List Char)) → JSState × List JSClassRec × List EdgeRec
  | [] => (st, [], [])
  | (c, ext) :: rest =>
    let cls : JSClassRec := ⟨c.asString, n, ext.map List.asString⟩
    let st1 := { st with currentClass := some c.asString, inClass := true }
    let es : List EdgeRec :=
      match ext with
      | some s => [⟨c.asString, s.asString, "extends", n⟩]
      | none => []
    let rec_ := jsClassSection st1 n rest
    (rec_.1, cls :: rec_.2.1, es ++ rec_.2.2)

/-- The function-definition while loop (script lines 149-172): inside a class
the name is qualified `currentClass::name` and `currentMethod` is updated,
otherwise `currentFunction` is updated.  (`result.methods` entries also carry
a `class` field; it is never read by the aggregation code.) -/
def jsFuncSection (st : JSState) (n : Nat) :
    List (List Char) → JSState × List DeclRec × List DeclRec
  | [] => (st, [], [])
  | f :: rest =>
    if st.inClass then
      let m := jsStr st.currentClass ++ "::" ++ f.asString
      let st1 := { st with currentMethod := some m }
      let rec_ := jsFuncSection st1 n rest
      (rec_.1, ⟨m, n⟩ :: rec_.2.1, rec_.2.2)
    else
      let st1 := { st with currentFunction := some f.asString }
      let rec_ := jsFuncSection st1 n rest
      (rec_.1, rec_.2.1, ⟨f.asString, n⟩ :: rec_.2.2)

/-- The call-expression while loop (script lines 175-201): an edge only when
the caller exists and the callee is not `console`/`require`/`import`; a dot
anywhere before the match index makes a wildcard `*.name` method_call,
otherwise an identifier whose first character is unchanged by
`toUpperCase()` makes an instantiates edge. -/
def jsCallEdges (st : JSState) (n : Nat) (line : List Char) : List EdgeRec :=
  (callScan line).filterMap fun dw =>
    let nm := dw.2.asString
    let caller := jsCaller st
    if jsTruthy caller && !(nm == "console") && !(nm == "require") && !(nm == "import") then
      if dw.1 then
        some ⟨jsStr caller, "*." ++ nm, "method_call", n⟩
      else
        match dw.2 with
        | c :: _ => if c.toUpper = c then some ⟨jsStr caller, nm, "instantiates", n⟩ else none
        | [] => none
    else none

/-- The new-keyword while loop (script lines 204-217). -/
def jsNewEdges (st : JSState) (n : Nat) (line : List Char) : List EdgeRec :=
  (newScan line).filterMap fun w =>
    let caller := jsCaller st
    if jsTruthy caller then some ⟨jsStr caller, w.asString, "instantiates", n⟩
    else none

def countCh (c : Char) (cs : List Char) : Nat := (cs.filter (· == c)).length

/-- Brace tracking (script lines 219-229): add open braces, subtract close
braces, and when `inClass` holds and the count is `<= 0` clear the class
context (`currentFunction` is left untouched). -/
def jsBraceStep (st : JSState) (line : List Char) : JSState :=
  let bc : Int := st.braceCount + (countCh '\x7b' line : Int) - (countCh '\x7d' line : Int)
  if st.inClass && decide (bc ≤ 0) then
    { st with braceCount := bc, inClass := false, currentClass := none, currentMethod := none }
  else { st with braceCount := bc }

/-- Per-file result of the embedded JS `analyzeFile` (the `imports` and
`exports` lists are filled by the script but never read by the node/edge
aggregation, so they are not modelled). -/
structure JSFileResult where
  classes : List JSClassRec
  methods : List DeclRec
  functions : List DeclRec
  edges : List EdgeRec
deriving DecidableEq

def jsResApp (a b : JSFileResult) : JSFileResult :=
  ⟨a.classes ++ b.classes, a.methods ++ b.methods,
   a.functions ++ b.functions, a.edges ++ b.edges⟩

/-- One iteration of the per-line for loop of the JS `analyzeFile`, in source
order: class matches, function matches, call matches, new matches, brace
tracking. -/
def processLine (st : JSState) (n : Nat) (line : List Char) : JSState × JSFileResult :=
  let c := jsClassSection st n (classScan line)
  let f := jsFuncSection c.1 n (funcScan line)
  let callEs := jsCallEdges f.1 n line
  let newEs := jsNewEdges f.1 n line
  let st3 := jsBraceStep f.1 line
  (st3, ⟨c.2.1, f.2.1, f.2.2, c.2.2 ++ callEs ++ newEs⟩)

def runLines : JSState → Nat → List (List Char) → JSState × JSFileResult
  | st, _, [] => (st, ⟨[], [], [], []⟩)
  | st, n, l :: ls =>
    let p := processLine st n l
    let q := runLines p.1 (n + 1) ls
    (q.1, jsResApp p.2 q.2)

/-- The embedded JS `analyzeFile` on a list of lines (line numbers are
1-based). -/
def analyzeFileJS (lines : List (List Char)) : JSFileResult :=
  (runLines jsInit 1 lines).2

/-! ### PHP analyzer: embedded PHP `analyzeFile` (src/graph_php.py lines 71-297)

`token_get_all` yields either single-character string tokens (modelled as
`PhpTok.ch`) or `[type, text, line]` arrays (`PhpTok.arr`).  Only the token
type constants the script dispatches on are distinguished; every other type
is `tOther`. -/

inductive PhpTokType
  | T_NAMESPACE
  | T_USE
  | T_STRING
  | T_NS_SEPARATOR
  | T_CLASS
  | T_EXTENDS
  | T_FUNCTION
  | T_NEW
  | T_DOUBLE_COLON
  | T_OBJECT_OPERATOR
  | T_WHITESPACE
  | tOther
deriving DecidableEq

inductive PhpTok
  | ch (s : String)
  | arr (t : PhpTokType) (text : String) (line : Nat)
deriving DecidableEq

/-- The per-file scan context of the PHP script: `$namespace`,
`$currentClass`, `$currentMethod`, `$currentFunction`. (`$useStatements` is
filled by the T_USE branch but never read afterwards, so it is not
modelled.) -/
structure PhpState where
  ns : String
  currentClass : Option String
  currentMethod : Option String
  currentFunction : Option String
deriving DecidableEq

/-- PHP truthiness of the nullable string variables (null and `''` falsy). -/
def phpTruthy : Option String → Bool
  | none => false
  | some s => !(s == "")

/-- PHP `a ?: b`. -/
def phpElvis (a b : Option String) : Option String := if phpTruthy a then a else b

/-- `$caller = $currentMethod ?: $currentFunction ?: $currentClass`. -/
def phpCaller (st : PhpState) : Option String :=
  phpElvis st.currentMethod (phpElvis st.currentFunction st.currentClass)

/-- Reading a nullable string where the source is known to have a string
(used only under truthiness guards). -/
def phpStr : Option String → String
  | some s => s
  | none => ""

/-- `$namespace ? $namespace . '\\' . $name : $name`. -/
def phpQualify (ns nm : String) : String :=
  if !(ns == "") then ns ++ "\\" ++ nm else nm

/-- The T_NAMESPACE accumulation loop (script lines 97-108): walk forward
until a string token whose first character is `;` (an array token's element 0
is the int type constant, never `;`), appending T_STRING texts and a
backslash for each T_NS_SEPARATOR. -/
def nsScan (acc : String) : List PhpTok → String
  | [] => acc
  | PhpTok.ch s :: rest => if s.front = ';' then acc else nsScan acc rest
  | PhpTok.arr t text _ :: rest =>
    if t = .T_STRING then nsScan (acc ++ text) rest
    else if t = .T_NS_SEPARATOR then nsScan (acc ++ "\\") rest
    else nsScan acc rest

/-- The `while (is_array($tokens[$j])) \x7bif T_STRING ... break\x7d` shape
shared by the T_CLASS, T_FUNCTION and T_NEW branches: skip array tokens until
the first T_STRING (returning its text and the tokens after it); stop with
nothing at a non-array token or the end. -/
def phpNameScan : List PhpTok → Option (String × List PhpTok)
  | [] => none
  | PhpTok.ch _ :: _ => none
  | PhpTok.arr t text _ :: rest =>
    if t = .T_STRING then some (text, rest) else phpNameScan rest

/-- The extends scan of the T_CLASS branch (script lines 143-164).  Mode
`false` is the outer `while ($tokens[$k] !== '\x7b')` loop; mode `true` is
the inner `while (is_array($tokens[$k]))` loop entered after a T_EXTENDS.
The inner loop records the first T_STRING and breaks (the outer `$k++` then
steps past it); when the inner loop stops at a non-array token, the outer
`$k++` consumes that token without testing it against `\x7b`. -/
def extScan : Bool → List PhpTok → List String
  | _, [] => []
  | false, PhpTok.ch s :: rest => if s = "\x7b" then [] else extScan false rest
  | false, PhpTok.arr t _ _ :: rest =>
    if t = .T_EXTENDS then extScan true rest else extScan false rest
  | true, PhpTok.ch _ :: rest => extScan false rest
  | true, PhpTok.arr t text _ :: rest =>
    if t = .T_STRING then text :: extScan false rest else extScan true rest

/-- Tokens the name-seeking loops step over: array tokens that are not
T_STRING (e.g. whitespace). -/
def arrNonStr : PhpTok → Prop
  | PhpTok.arr ty _ _ => ty ≠ .T_STRING
  | PhpTok.ch _ => False

/-- Tokens the outer extends-scanning loop steps over: anything that is
neither the closing-test token `\x7b` nor a T_EXTENDS array token. -/
def notBraceExt : PhpTok → Prop
  | PhpTok.ch s => s ≠ "\x7b"
  | PhpTok.arr ty _ _ => ty ≠ .T_EXTENDS

/-- Per-file result of the PHP `analyzeFile` (classes/methods/functions keep
only the name/line payload used by the aggregation; the `class` field of a
method entry and the `extends` field of a class entry are never read). -/
structure PhpResult where
  classes : List DeclRec
  methods : List DeclRec
  functions : List DeclRec
  edges : List EdgeRec
deriving DecidableEq

def prEmpty : PhpResult := ⟨[], [], [], []⟩

def prApp (a b : PhpResult) : PhpResult :=
  ⟨a.classes ++ b.classes, a.methods ++ b.methods,
   a.functions ++ b.functions, a.edges ++ b.edges⟩

/-- The T_CLASS branch (script lines 128-171): find the class name, qualify
it with the namespace, set `$currentClass`, then scan the header for extends
targets, emitting one `extends` edge per recorded target at the line of the
T_CLASS token. -/
def phpClassHandle (st : PhpState) (line : Nat) (rest : List PhpTok) :
    PhpState × PhpResult :=
  match phpNameScan rest with
  | none => (st, prEmpty)
  | some (nm, after) =>
    let fullName := phpQualify st.ns nm
    let st1 := { st with currentClass := some fullName }
    let es := (extScan false after).map
      (fun s => EdgeRec.mk fullName s "extends" line)
    (st1, ⟨[⟨fullName, line⟩], [], [], es⟩)

/-- The T_FUNCTION branch (script lines 174-206). -/
def phpFuncHandle (st : PhpState) (line : Nat) (rest : List PhpTok) :
    PhpState × PhpResult :=
  match phpNameScan rest with
  | none => (st, prEmpty)
  | some (fn, _) =>
    if phpTruthy st.currentClass then
      let m := phpStr st.currentClass ++ "::" ++ fn
      ({ st with currentMethod := some m }, ⟨[], [⟨m, line⟩], [], []⟩)
    else
      let f := phpQualify st.ns fn
      ({ st with currentFunction := some f }, ⟨[], [], [⟨f, line⟩], []⟩)

/-- The T_NEW branch (script lines 209-228). -/
def phpNewHandle (st : PhpState) (line : Nat) (rest : List PhpTok) : List EdgeRec :=
  match phpNameScan rest with
  | none => []
  | some (cn, _) =>
    let caller := phpCaller st
    if phpTruthy caller then [⟨phpStr caller, cn, "instantiates", line⟩] else []

/-- The T_DOUBLE_COLON branch (script lines 231-257): class name from the
immediately preceding token, method name from the immediately following
token, both required to be T_STRING arrays. -/
def phpDColonHandle (st : PhpState) (line : Nat) (prev : Option PhpTok)
    (rest : List PhpTok) : List EdgeRec :=
  let className : Option String :=
    match prev with
    | some (PhpTok.arr t s _) => if t = .T_STRING then some s else none
    | _ => none
  let methodName : Option String :=
    match rest with
    | PhpTok.arr t s _ :: _ => if t = .T_STRING then some s else none
    | _ => none
  if phpTruthy className && phpTruthy methodName then
    let caller := phpCaller st
    if phpTruthy caller then
      [⟨phpStr caller, phpStr className ++ "::" ++ phpStr methodName, "static_call", line⟩]
    else []
  else []

/-- The T_OBJECT_OPERATOR branch (script lines 260-277): the receiver type is
unknown, so the target is the wildcard `*::name`. -/
def phpObjHandle (st : PhpState) (line : Nat) (rest : List PhpTok) : List EdgeRec :=
  match rest with
  | PhpTok.arr t s _ :: _ =>
    if t = .T_STRING then
      let caller := phpCaller st
      if phpTruthy caller then [⟨phpStr caller, "*::" ++ s, "method_call", line⟩] else []
    else []
  | _ => []

/-- The backward brace scan of the context-reset block (script lines
283-288): walk the tokens before the current index from nearest to farthest,
incrementing on `\x7b` and decrementing on `\x7d`, stopping as soon as the
count is positive. -/
def braceBack (bc : Int) : List PhpTok → Int
  | [] => bc
  | t :: rest =>
    let bc1 := if t = PhpTok.ch "\x7b" then bc + 1 else bc
    let bc2 := if t = PhpTok.ch "\x7d" then bc1 - 1 else bc1
    if decide (bc2 > 0) then bc2 else braceBack bc2 rest

/-- One iteration of the main `for ($i...)` loop of the PHP `analyzeFile`
(script lines 91-294). `before` is the reversed list of tokens preceding the
current one and `prev` its head.  A non-array token is skipped by
`if (!is_array($tokens[$i])) continue;` (script line 92), so the trailing
reset block — guarded by `$tokens[$i] === '\x7d'`, which can only be an
array token at that point — is preserved verbatim below but can never fire. -/
def phpStepTok (before : List PhpTok) (prev : Option PhpTok) (st : PhpState) :
    PhpTok → List PhpTok → PhpState × PhpResult
  | PhpTok.ch _, _ => (st, prEmpty)
  | PhpTok.arr ty txt line, rest =>
    let h1 : PhpState × PhpResult :=
      if ty = .T_NAMESPACE then ({ st with ns := nsScan "" rest }, prEmpty)
      else if ty = .T_USE then (st, prEmpty)
      else if ty = .T_CLASS then phpClassHandle st line rest
      else if ty = .T_FUNCTION then phpFuncHandle st line rest
      else if ty = .T_NEW then (st, ⟨[], [], [], phpNewHandle st line rest⟩)
      else if ty = .T_DOUBLE_COLON then (st, ⟨[], [], [], phpDColonHandle st line prev rest⟩)
      else if ty = .T_OBJECT_OPERATOR then (st, ⟨[], [], [], phpObjHandle st line rest⟩)
      else (st, prEmpty)
    let st2 :=
      if PhpTok.arr ty txt line = PhpTok.ch "\x7d" && phpTruthy h1.1.currentClass then
        if braceBack 0 before = 0 then
          { h1.1 with currentClass := none, currentMethod := none }
        else h1.1
      else h1.1
    (st2, h1.2)

def phpLoop (before : List PhpTok) (prev : Option PhpTok) (st : PhpState) :
    List PhpTok → PhpState × PhpResult
  | [] => (st, prEmpty)
  | t :: rest =>
    let p := phpStepTok before prev st t rest
    let q := phpLoop (t :: before) (some t) p.1 rest
    (q.1, prApp p.2 q.2)

def phpInit : PhpState := ⟨"", none, none, none⟩

/-- The embedded PHP `analyzeFile` on a token stream. -/
def analyzeFilePhp (toks : List PhpTok) : PhpResult :=
  (phpLoop [] none phpInit toks).2

/-! ### Graph assembler: `analyze` and `_build_graph`

`JSAnalyzer.analyze` (src/graph_js.py lines 384-408) and
`PHPAnalyzer.analyze` (src/graph_php.py lines 414-438) are verbatim copies of
each other, as are the two `_build_graph` methods; the embedding below covers
both.  The node index is a Python dict keyed by id (insertion-ordered;
overwriting keeps the original position), built completely before any edge is
processed; each edge is appended to `self.edges` and bumps `out_degree` of
its source and `in_degree` of its target when that key is present in the
index. -/

structure RawNode where
  id : String
  label : String
  type : String
  file : String
  line : Nat
deriving DecidableEq

structure RawEdge where
  source : String
  target : String
  type : String
  file : String
  line : Nat
deriving DecidableEq

structure GNode where
  id : String
  label : String
  type : String
  file : String
  line : Nat
  in_degree : Nat
  out_degree : Nat
deriving DecidableEq

structure OutEdge where
  source : String
  target : String
  type : String
deriving DecidableEq

/-- `self.nodes[k] = v` on an insertion-ordered dict. -/
def insertNode : List (String × GNode) → String → GNode → List (String × GNode)
  | [], k, v => [(k, v)]
  | (k0, v0) :: rest, k, v =>
    if k0 = k then (k0, v) :: rest else (k0, v0) :: insertNode rest k v

def lookupNode : List (String × GNode) → String → Option GNode
  | [], _ => none
  | (k0, v0) :: rest, k => if k0 = k then some v0 else lookupNode rest k

def containsNode (m : List (String × GNode)) (k : String) : Bool :=
  (lookupNode m k).isSome

/-- Update the dict entry keyed `k` in place (a Python dict holds one entry
per key; mapping over the association list applies the update to exactly that
entry). -/
def bumpEntry (k : String) (g : GNode → GNode) : String × GNode → String × GNode
  | (k0, v) => if k0 = k then (k0, g v) else (k0, v)

/-- `if edge['source'] in self.nodes: self.nodes[edge['source']].out_degree += 1`. -/
def bumpOut (m : List (String × GNode)) (k : String) : List (String × GNode) :=
  if containsNode m k then
    m.map (bumpEntry k (fun v => { v with out_degree := v.out_degree + 1 }))
  else m

/-- `if edge['target'] in self.nodes: self.nodes[edge['target']].in_degree += 1`. -/
def bumpIn (m : List (String × GNode)) (k : String) : List (String × GNode) :=
  if containsNode m k then
    m.map (bumpEntry k (fun v => { v with in_degree := v.in_degree + 1 }))
  else m

def applyEdge (m : List (String × GNode)) (e : RawEdge) : List (String × GNode) :=
  bumpIn (bumpOut m e.source) e.target

/-- The node-index pass of `analyze` (degrees start at 0 per the dataclass
defaults). -/
def buildIndex (nodes : List RawNode) : List (String × GNode) :=
  nodes.foldl (fun m n => insertNode m n.id ⟨n.id, n.label, n.type, n.file, n.line, 0, 0⟩) []

/-- The edge pass of `analyze`: the node index is complete before the first
edge is processed, and `self.edges` accumulates every input edge unchanged. -/
def assemble (nodes : List RawNode) (edges : List RawEdge) : List (String × GNode) :=
  edges.foldl applyEdge (buildIndex nodes)

def projEdge (e : RawEdge) : OutEdge := ⟨e.source, e.target, e.type⟩

/-- Degree bump by `a` outgoing and `b` incoming (used to state what the
edge pass does to a single index entry). -/
def addDeg (v : GNode) (a b : Nat) : GNode :=
  { v with out_degree := v.out_degree + a, in_degree := v.in_degree + b }

structure Graph where
  nodes : List GNode
  edges : List OutEdge
  total_nodes : Nat
  total_edges : Nat
  classes : Nat
  methods : Nat
  functions : Nat
deriving DecidableEq

/-- `_build_graph`: node list in index order with the computed degrees, edges
projected to source/target/type, plus the stats block. -/
def buildGraph (nodes : List RawNode) (edges : List RawEdge) : Graph :=
  let m := assemble nodes edges
  let nl := m.map Prod.snd
  let el := edges.map projEdge
  ⟨nl, el, nl.length, el.length,
   (nl.filter (fun n => n.type == "class")).length,
   (nl.filter (fun n => n.type == "method")).length,
   (nl.filter (fun n => n.type == "function")).length⟩

/-! ## Lemmas about the graph assembler -/

theorem lookup_insert (m : List (String × GNode)) (k : String) (v : GNode) (k' : String) :
    lookupNode (insertNode m k v) k' = if k' = k then some v else lookupNode m k' := by
  induction m with
  | nil =>
    by_cases h : k' = k
    · subst h; simp [insertNode, lookupNode]
    · simp [insertNode, lookupNode, h, Ne.symm h]
  | cons p rest ih =>
    obtain ⟨k0, v0⟩ := p
    by_cases h0 : k0 = k
    · subst h0
      by_cases h : k' = k0
      · subst h; simp [insertNode, lookupNode]
      · simp [insertNode, lookupNode, h, Ne.symm h]
    · by_cases h : k0 = k'
      · subst h
        simp [insertNode, lookupNode, h0]
      · simp [insertNode, lookupNode, h0, h, ih]

theorem lookup_map_upd (m : List (String × GNode)) (k k' : String) (g : GNode → GNode) :
    lookupNode (m.map (bumpEntry k g)) k'
      = if k' = k then (lookupNode m k').map g else lookupNode m k' := by
  induction m with
  | nil => by_cases h : k' = k <;> simp [lookupNode, h]
  | cons p rest ih =>
    obtain ⟨k0, v0⟩ := p
    rw [List.map_cons]
    by_cases h0 : k0 = k
    · subst h0
      rw [show bumpEntry k0 g (k0, v0) = (k0, g v0) by simp [bumpEntry]]
      by_cases h : k' = k0
      · subst h
        simp [lookupNode]
      · simp [lookupNode, h, Ne.symm h, ih]
    · rw [show bumpEntry k g (k0, v0) = (k0, v0) by simp [bumpEntry, h0]]
      by_cases h : k0 = k'
      · subst h
        simp [lookupNode, h0]
      · simp [lookupNode, h, ih]

theorem lookup_eq_none_iff (m : List (String × GNode)) (k : String) :
    lookupNode m k = none ↔ k ∉ m.map Prod.fst := by
  induction m with
  | nil => simp [lookupNode]
  | cons p rest ih =>
    obtain ⟨k0, v0⟩ := p
    by_cases h : k0 = k
    · subst h; simp [lookupNode]
    · simp [lookupNode, h, ih, Ne.symm h]

theorem lookup_bumpOut (m : List (String × GNode)) (k k' : String) :
    lookupNode (bumpOut m k) k'
      = if k' = k then
          (lookupNode m k').map (fun v => { v with out_degree := v.out_degree + 1 })
        else lookupNode m k' := by
  unfold bumpOut
  cases hc : containsNode m k with
  | true =>
    simp only [hc, if_true]
    exact lookup_map_upd m k k' (fun v => { v with out_degree := v.out_degree + 1 })
  | false =>
    simp only [hc, Bool.false_eq_true, if_false]
    by_cases h : k' = k
    · subst h
      cases h2 : lookupNode m k' with
      | none => simp [h2]
      | some v =>
        rw [containsNode, h2] at hc
        simp at hc
    · simp [h]

theorem lookup_bumpIn (m : List (String × GNode)) (k k' : String) :
    lookupNode (bumpIn m k) k'
      = if k' = k then
          (lookupNode m k').map (fun v => { v with in_degree := v.in_degree + 1 })
        else lookupNode m k' := by
  unfold bumpIn
  cases hc : containsNode m k with
  | true =>
    simp only [hc, if_true]
    exact lookup_map_upd m k k' (fun v => { v with in_degree := v.in_degree + 1 })
  | false =>
    simp only [hc, Bool.false_eq_true, if_false]
    by_cases h : k' = k
    · subst h
      cases h2 : lookupNode m k' with
      | none => simp [h2]
      | some v =>
        rw [containsNode, h2] at hc
        simp at hc
    · simp [h]

theorem lookup_applyEdge (m : List (String × GNode)) (e : RawEdge) (k : String) :
    lookupNode (applyEdge m e) k
      = (lookupNode m k).map
          (fun v => addDeg v (if e.source = k then 1 else 0) (if e.target = k then 1 else 0)) := by
  unfold applyEdge
  rw [lookup_bumpIn, lookup_bumpOut]
  cases h : lookupNode m k with
  | none =>
    by_cases hs : k = e.source <;> by_cases ht : k = e.target <;> simp [hs, ht, h]
  | some v =>
    by_cases hs : e.source = k <;> by_cases ht : e.target = k
    · simp [hs, ht, h, addDeg]
    · simp [hs, ht, Ne.symm ht, h, addDeg]
    · simp [hs, ht, Ne.symm hs, h, addDeg]
    · simp [hs, ht, Ne.symm hs, Ne.symm ht, h, addDeg]

theorem addDeg_zero (v : GNode) : addDeg v 0 0 = v := by
  simp [addDeg]

theorem addDeg_addDeg (v : GNode) (a b a' b' : Nat) :
    addDeg (addDeg v a b) a' b' = addDeg v (a + a') (b + b') := by
  simp [addDeg, Nat.add_assoc]

theorem lookup_foldl_applyEdge (es : List RawEdge) (m : List (String × GNode)) (k : String) :
    lookupNode (es.foldl applyEdge m) k
      = (lookupNode m k).map
          (fun v => addDeg v ((es.filter (fun e => e.source == k)).length)
                            ((es.filter (fun e => e.target == k)).length)) := by
  induction es generalizing m with
  | nil =>
    cases h : lookupNode m k <;> simp [h, addDeg_zero]
  | cons e es ih =>
    rw [List.foldl_cons, ih, lookup_applyEdge]
    cases h : lookupNode m k
    · simp
    · simp only [Option.map_some', addDeg_addDeg]
      by_cases hs : e.source = k <;> by_cases ht : e.target = k <;>
        simp [List.filter_cons, hs, ht] <;>
          congr 1 <;> omega

theorem buildIndex_lookup_spec (nodes : List RawNode) (k : String) (v : GNode)
    (h : lookupNode (buildIndex nodes) k = some v) :
    v.id = k ∧ v.in_degree = 0 ∧ v.out_degree = 0 := by
  unfold buildIndex at h
  suffices H : ∀ m : List (String × GNode),
      (∀ k v, lookupNode m k = some v → v.id = k ∧ v.in_degree = 0 ∧ v.out_degree = 0) →
      ∀ k v, lookupNode
        (nodes.foldl (fun m n => insertNode m n.id ⟨n.id, n.label, n.type, n.file, n.line, 0, 0⟩) m)
          k = some v → v.id = k ∧ v.in_degree = 0 ∧ v.out_degree = 0 by
    exact H [] (by intro k v h; simp [lookupNode] at h) k v h
  intro m hm
  clear h
  induction nodes generalizing m with
  | nil => simpa [lookupNode] using hm
  | cons n ns ih =>
    intro k v h
    refine ih _ ?_ k v h
    intro k' v' h'
    rw [lookup_insert] at h'
    by_cases hk : k' = n.id
    · simp only [hk, if_true] at h'
      cases h'
      exact ⟨hk.symm, rfl, rfl⟩
    · exact hm k' v' (by simpa [hk] using h')

theorem lookup_buildIndex_none (nodes : List RawNode) (k : String)
    (h : k ∉ nodes.map (fun n => n.id)) :
    lookupNode (buildIndex nodes) k = none := by
  unfold buildIndex
  suffices H : ∀ m : List (String × GNode), lookupNode m k = none →
      lookupNode
        (nodes.foldl (fun m n => insertNode m n.id ⟨n.id, n.label, n.type, n.file, n.line, 0, 0⟩) m)
        k = none by
    exact H [] (by simp [lookupNode])
  induction nodes with
  | nil => intro m hm; simpa using hm
  | cons n ns ih =>
    simp only [List.map_cons, List.mem_cons] at h
    push_neg at h
    intro m hm
    refine ih h.2 _ ?_
    rw [lookup_insert]
    simp [h.1, hm]

theorem containsNode_cons_ne (k0 : String) (v0 : GNode) (rest : List (String × GNode))
    (k : String) (h0 : k0 ≠ k) :
    containsNode ((k0, v0) :: rest) k = containsNode rest k := by
  simp [containsNode, lookupNode, h0]

theorem keys_insert (m : List (String × GNode)) (k : String) (v : GNode) :
    (insertNode m k v).map Prod.fst
      = if containsNode m k then m.map Prod.fst else m.map Prod.fst ++ [k] := by
  induction m with
  | nil => simp [insertNode, containsNode, lookupNode]
  | cons p rest ih =>
    obtain ⟨k0, v0⟩ := p
    by_cases h0 : k0 = k
    · subst h0; simp [insertNode, containsNode, lookupNode]
    · simp only [insertNode, h0, if_false, List.map_cons]
      rw [containsNode_cons_ne k0 v0 rest k h0, ih]
      cases hc : containsNode rest k <;> simp

theorem keys_insert_nodup (m : List (String × GNode)) (k : String) (v : GNode)
    (h : (m.map Prod.fst).Nodup) : ((insertNode m k v).map Prod.fst).Nodup := by
  rw [keys_insert]
  cases hc : containsNode m k with
  | true => simpa
  | false =>
    simp only [Bool.false_eq_true, if_false]
    have hk : k ∉ m.map Prod.fst := by
      refine (lookup_eq_none_iff m k).mp ?_
      cases h2 : lookupNode m k with
      | none => rfl
      | some v => rw [containsNode, h2] at hc; simp at hc
    simp [List.nodup_append, h, hk]

theorem buildIndex_keys_nodup (nodes : List RawNode) :
    ((buildIndex nodes).map Prod.fst).Nodup := by
  unfold buildIndex
  suffices H : ∀ m : List (String × GNode), (m.map Prod.fst).Nodup →
      ((nodes.foldl (fun m n => insertNode m n.id ⟨n.id, n.label, n.type, n.file, n.line, 0, 0⟩) m).map
        Prod.fst).Nodup by
    exact H [] (by simp)
  induction nodes with
  | nil => intro m hm; simpa using hm
  | cons n ns ih =>
    intro m hm
    exact ih _ (keys_insert_nodup m n.id _ hm)

theorem keys_buildIndex_subset (nodes : List RawNode) (k : String)
    (h : k ∈ (buildIndex nodes).map Prod.fst) : k ∈ nodes.map (fun n => n.id) := by
  by_contra hk
  have := lookup_buildIndex_none nodes k hk
  rw [lookup_eq_none_iff] at this
  exact this h

theorem mem_insert_cases (m : List (String × GNode)) (k : String) (v : GNode)
    (p : String × GNode) (h : p ∈ insertNode m k v) : p ∈ m ∨ p = (k, v) := by
  induction m with
  | nil => simpa [insertNode] using h
  | cons q rest ih =>
    obtain ⟨k0, v0⟩ := q
    by_cases h0 : k0 = k
    · subst h0
      simp only [insertNode, if_pos rfl] at h
      rcases List.mem_cons.mp h with h | h
      · right; simpa using h
      · left; exact List.mem_cons_of_mem _ h
    · simp only [insertNode, h0, if_false] at h
      rcases List.mem_cons.mp h with h | h
      · left; simp [h]
      · rcases ih h with h | h
        · left; exact List.mem_cons_of_mem _ h
        · right; exact h

theorem buildIndex_id_inv (nodes : List RawNode) (p : String × GNode)
    (h : p ∈ buildIndex nodes) : p.2.id = p.1 := by
  unfold buildIndex at h
  suffices H : ∀ m : List (String × GNode), (∀ q ∈ m, q.2.id = q.1) →
      ∀ q ∈ nodes.foldl (fun m n => insertNode m n.id ⟨n.id, n.label, n.type, n.file, n.line, 0, 0⟩) m,
        q.2.id = q.1 by
    exact H [] (by simp) p h
  clear h
  induction nodes with
  | nil => intro m hm; simpa using hm
  | cons n ns ih =>
    intro m hm
    rw [List.foldl_cons]
    apply ih
    intro q hq
    rcases mem_insert_cases m n.id _ q hq with h | h
    · exact hm q h
    · simp [h]

theorem keys_bump_eq (m : List (String × GNode)) (k : String) (g : GNode → GNode) :
    ((m.map (bumpEntry k g)).map Prod.fst) = m.map Prod.fst := by
  induction m with
  | nil => rfl
  | cons p rest ih =>
    obtain ⟨k0, v0⟩ := p
    by_cases h : k0 = k <;> simp [bumpEntry, h, ih]

theorem keys_bumpOut (m : List (String × GNode)) (k : String) :
    (bumpOut m k).map Prod.fst = m.map Prod.fst := by
  unfold bumpOut
  cases hc : containsNode m k with
  | true => simp only [hc, if_true]; exact keys_bump_eq m k _
  | false => simp

theorem keys_bumpIn (m : List (String × GNode)) (k : String) :
    (bumpIn m k).map Prod.fst = m.map Prod.fst := by
  unfold bumpIn
  cases hc : containsNode m k with
  | true => simp only [hc, if_true]; exact keys_bump_eq m k _
  | false => simp

theorem keys_applyEdge (m : List (String × GNode)) (e : RawEdge) :
    (applyEdge m e).map Prod.fst = m.map Prod.fst := by
  unfold applyEdge
  rw [keys_bumpIn, keys_bumpOut]

theorem id_inv_map_bump (m : List (String × GNode)) (k : String) (g : GNode → GNode)
    (hg : ∀ v, (g v).id = v.id) (hm : ∀ q ∈ m, q.2.id = q.1) :
    ∀ q ∈ m.map (bumpEntry k g), q.2.id = q.1 := by
  intro q hq
  rcases List.mem_map.mp hq with ⟨r, hr, hrq⟩
  obtain ⟨k0, v0⟩ := r
  by_cases h : k0 = k
  · rw [← hrq]; simp [bumpEntry, h, hg v0]
    have := hm (k0, v0) hr
    simpa [h] using this
  · rw [← hrq]
    simpa [bumpEntry, h] using hm (k0, v0) hr

theorem id_inv_applyEdge (m : List (String × GNode)) (e : RawEdge)
    (hm : ∀ q ∈ m, q.2.id = q.1) : ∀ q ∈ applyEdge m e, q.2.id = q.1 := by
  unfold applyEdge bumpOut bumpIn
  cases h1 : containsNode m e.source with
  | false =>
    simp only [h1, Bool.false_eq_true, if_false]
    split
    · exact id_inv_map_bump m e.target _ (fun v => rfl) hm
    · exact hm
  | true =>
    simp only [h1, if_true]
    have hmid := id_inv_map_bump m e.source
      (fun v => { v with out_degree := v.out_degree + 1 }) (fun v => rfl) hm
    split
    · exact id_inv_map_bump _ e.target _ (fun v => rfl) hmid
    · exact hmid

theorem keys_assemble (nodes : List RawNode) (edges : List RawEdge) :
    (assemble nodes edges).map Prod.fst = (buildIndex nodes).map Prod.fst := by
  unfold assemble
  suffices H : ∀ m : List (String × GNode),
      ((edges.foldl applyEdge m).map Prod.fst) = m.map Prod.fst by
    exact H _
  induction edges with
  | nil => intro m; rfl
  | cons f fs ihf =>
    intro m
    rw [List.foldl_cons, ihf, keys_applyEdge]

theorem id_inv_assemble (nodes : List RawNode) (edges : List RawEdge) :
    ∀ q ∈ assemble nodes edges, q.2.id = q.1 := by
  unfold assemble
  suffices H : ∀ m : List (String × GNode), (∀ q ∈ m, q.2.id = q.1) →
      ∀ q ∈ edges.foldl applyEdge m, q.2.id = q.1 by
    exact H _ (buildIndex_id_inv nodes)
  induction edges with
  | nil => intro m hm; simpa using hm
  | cons e es ih =>
    intro m hm
    exact ih _ (id_inv_applyEdge m e hm)

theorem mem_values_lookup (m : List (String × GNode)) (nd : GNode)
    (hinv : ∀ q ∈ m, q.2.id = q.1) (hnd : (m.map Prod.fst).Nodup)
    (h : nd ∈ m.map Prod.snd) : lookupNode m nd.id = some nd := by
  induction m with
  | nil => simp at h
  | cons p rest ih =>
    obtain ⟨k0, v0⟩ := p
    rcases List.mem_map.mp h with ⟨q, hq, hqnd⟩
    rcases List.mem_cons.mp hq with hq0 | hqr
    · subst hq0
      have : v0 = nd := hqnd
      subst this
      have hid : v0.id = k0 := hinv (k0, v0) (List.mem_cons_self _ _)
      simp [lookupNode, hid]
    · have hnd' : (k0 :: rest.map Prod.fst).Nodup := by simpa using hnd
      obtain ⟨hk0mem, hrestnd⟩ := List.nodup_cons.mp hnd'
      have hidq : nd.id ∈ rest.map Prod.fst := by
        have : q.2.id = q.1 := hinv q (List.mem_cons_of_mem _ hqr)
        rw [← hqnd, this]
        exact List.mem_map.mpr ⟨q, hqr, rfl⟩
      have hk0 : k0 ≠ nd.id := by
        intro hcontra
        exact hk0mem (hcontra ▸ hidq)
      rw [lookupNode, if_neg hk0]
      exact ih (fun q hq => hinv q (List.mem_cons_of_mem _ hq))
        (by simpa using hrestnd)
        (List.mem_map.mpr ⟨q, hqr, hqnd⟩)

/-- C1: in every graph returned by `analyze`/`_build_graph`, a node's
`in_degree` is the number of edges in the final edge multiset whose target
equals its id and its `out_degree` the number whose source equals its id;
endpoints absent from the node index receive no degree (they have no node to
receive it), so for every present node all matching edges are counted. -/
theorem c1_degree_counts (nodes : List RawNode) (edges : List RawEdge) (nd : GNode)
    (h : nd ∈ (buildGraph nodes edges).nodes) :
    nd.in_degree = (edges.filter (fun e => e.target == nd.id)).length ∧
    nd.out_degree = (edges.filter (fun e => e.source == nd.id)).length := by
  have hmem : nd ∈ (assemble nodes edges).map Prod.snd := by
    simpa [buildGraph] using h
  have hlk : lookupNode (assemble nodes edges) nd.id = some nd := by
    refine mem_values_lookup _ _ (id_inv_assemble nodes edges) ?_ hmem
    rw [keys_assemble]
    exact buildIndex_keys_nodup nodes
  rw [show assemble nodes edges = edges.foldl applyEdge (buildIndex nodes) from rfl,
    lookup_foldl_applyEdge] at hlk
  cases h0 : lookupNode (buildIndex nodes) nd.id with
  | none => rw [h0] at hlk; simp at hlk
  | some v0 =>
    rw [h0] at hlk
    simp only [Option.map_some', Option.some.injEq] at hlk
    obtain ⟨-, hin, hout⟩ := buildIndex_lookup_spec nodes nd.id v0 h0
    have hIn := congrArg GNode.in_degree hlk
    have hOut := congrArg GNode.out_degree hlk
    simp [addDeg, hin] at hIn
    simp [addDeg, hout] at hOut
    exact ⟨hIn.symm, hOut.symm⟩

/-- C1 witness at a concrete extractor output. -/
theorem c1_degree_counts_witness :
    (⟨"Dog", "Dog", "class", "a.php", 1, 1, 0⟩ : GNode) ∈
      (buildGraph [⟨"Dog", "Dog", "class", "a.php", 1⟩]
        [⟨"Dog::speak", "Dog", "calls", "a.php", 3⟩] : Graph).nodes ∧
    (1 = (([⟨"Dog::speak", "Dog", "calls", "a.php", 3⟩] :
        List RawEdge).filter (fun e => e.target == "Dog")).length) := by
  refine ⟨by decide, ?_⟩
  have := c1_degree_counts [⟨"Dog", "Dog", "class", "a.php", 1⟩]
    [⟨"Dog::speak", "Dog", "calls", "a.php", 3⟩]
    ⟨"Dog", "Dog", "class", "a.php", 1, 1, 0⟩ (by decide)
  exact this.1

/-- C2: node identifiers are unique in the finalized node list, for every
extractor output (re-declarations overwrite the dict entry in place). -/
theorem c2_unique_ids (nodes : List RawNode) (edges : List RawEdge) :
    ((buildGraph nodes edges).nodes.map (fun n => n.id)).Nodup := by
  have hkeys : ((assemble nodes edges).map Prod.fst).Nodup := by
    rw [keys_assemble]; exact buildIndex_keys_nodup nodes
  have : (buildGraph nodes edges).nodes.map (fun n => n.id)
      = (assemble nodes edges).map Prod.fst := by
    simp only [buildGraph, List.map_map]
    refine List.map_congr_left ?_
    intro q hq
    exact id_inv_assemble nodes edges q hq
  rw [this]
  exact hkeys

/-- C4: an edge whose target is never declared as a node is retained in the
final edge list exactly as emitted (the whole projected edge list equals the
input occurrences in order), and no node with that id exists in the node
index. -/
theorem c4_unknown_targets (nodes : List RawNode) (edges : List RawEdge) (e : RawEdge)
    (he : e ∈ edges) (ht : e.target ∉ nodes.map (fun n => n.id)) :
    (buildGraph nodes edges).edges = edges.map projEdge ∧
    projEdge e ∈ (buildGraph nodes edges).edges ∧
    ∀ nd ∈ (buildGraph nodes edges).nodes, nd.id ≠ e.target := by
  refine ⟨rfl, ?_, ?_⟩
  · exact List.mem_map.mpr ⟨e, he, rfl⟩
  · intro nd hnd hcontra
    have hmem : nd ∈ (assemble nodes edges).map Prod.snd := by
      simpa [buildGraph] using hnd
    rcases List.mem_map.mp hmem with ⟨q, hq, hqnd⟩
    have hid : q.2.id = q.1 := id_inv_assemble nodes edges q hq
    have hkey : nd.id ∈ (assemble nodes edges).map Prod.fst := by
      rw [← hqnd, hid]
      exact List.mem_map.mpr ⟨q, hq, rfl⟩
    rw [keys_assemble] at hkey
    have := keys_buildIndex_subset nodes nd.id hkey
    rw [hcontra] at this
    exact ht this

/-- C4 witness: the spec scenario — inside `Dog::speak` a `new Sound()`
emits `Dog::speak → Sound`; `Sound` is retained as an edge target but gets
no node. -/
theorem c4_unknown_targets_witness :
    ((⟨"Dog::speak", "Sound", "instantiates", "a.php", 3⟩ : RawEdge) ∈
      ([⟨"Dog::speak", "Sound", "instantiates", "a.php", 3⟩] : List RawEdge)) ∧
    (buildGraph
      [⟨"Dog", "Dog", "class", "a.php", 1⟩, ⟨"Dog::speak", "speak", "method", "a.php", 2⟩]
      [⟨"Dog::speak", "Sound", "instantiates", "a.php", 3⟩]).edges
        = [⟨"Dog::speak", "Sound", "instantiates"⟩] ∧
    (∀ nd ∈ (buildGraph
      [⟨"Dog", "Dog", "class", "a.php", 1⟩, ⟨"Dog::speak", "speak", "method", "a.php", 2⟩]
      [⟨"Dog::speak", "Sound", "instantiates", "a.php", 3⟩]).nodes, nd.id ≠ "Sound") := by
  have h := c4_unknown_targets
    [⟨"Dog", "Dog", "class", "a.php", 1⟩, ⟨"Dog::speak", "speak", "method", "a.php", 2⟩]
    [⟨"Dog::speak", "Sound", "instantiates", "a.php", 3⟩]
    ⟨"Dog::speak", "Sound", "instantiates", "a.php", 3⟩
    (by decide) (by decide)
  exact ⟨by decide, h.1, h.2.2⟩

/-! ## Lemmas about the JS scanners -/

theorem takeWord_length (cs : List Char) :
    (takeWord cs).1.length + (takeWord cs).2.length = cs.length := by
  induction cs with
  | nil => simp [takeWord]
  | cons c cs ih =>
    by_cases h : wordChar c <;> simp [takeWord, h] <;> omega

theorem skipWs_length (cs : List Char) : (skipWs cs).length ≤ cs.length := by
  induction cs with
  | nil => simp [skipWs]
  | cons c cs ih =>
    by_cases h : jsWs c <;> simp [skipWs, h] <;> omega

theorem dropLit_length (l : List Char) :
    ∀ cs r, dropLit l cs = some r → r.length + l.length = cs.length := by
  induction l with
  | nil =>
    intro cs r h
    simp only [dropLit, Option.some.injEq] at h
    subst h; simp
  | cons a l ih =>
    intro cs r h
    cases cs with
    | nil => simp [dropLit] at h
    | cons c cs =>
      simp only [dropLit] at h
      by_cases hc : c = a
      · rw [if_pos hc] at h
        have := ih cs r h
        simp only [List.length_cons]
        omega
      · rw [if_neg hc] at h
        simp at h

theorem dropLit_subset (l : List Char) :
    ∀ cs r, dropLit l cs = some r → ∀ x ∈ r, x ∈ cs := by
  induction l with
  | nil =>
    intro cs r h
    simp only [dropLit, Option.some.injEq] at h
    subst h; exact fun x hx => hx
  | cons a l ih =>
    intro cs r h
    cases cs with
    | nil => simp [dropLit] at h
    | cons c cs =>
      simp only [dropLit] at h
      by_cases hc : c = a
      · rw [if_pos hc] at h
        intro x hx
        exact List.mem_cons_of_mem _ (ih cs r h x hx)
      · rw [if_neg hc] at h
        simp at h

theorem skipWs_subset (cs : List Char) : ∀ x ∈ skipWs cs, x ∈ cs := by
  induction cs with
  | nil => simp [skipWs]
  | cons c cs ih =>
    by_cases h : jsWs c
    · simp only [skipWs, h, if_true]
      intro x hx
      exact List.mem_cons_of_mem _ (ih x hx)
    · simp [skipWs, h]

theorem tryOptLit_length (lit cs : List Char) : (tryOptLit lit cs).length ≤ cs.length := by
  unfold tryOptLit
  cases h : dropLit lit cs with
  | none => simp
  | some r1 =>
    cases r1 with
    | nil => simp
    | cons c r =>
      by_cases hw : jsWs c
      · simp only [hw, if_true]
        have h1 := dropLit_length lit cs (c :: r) h
        have h2 := skipWs_length r
        simp only [List.length_cons] at h1
        omega
      · simp [hw]

theorem tryOptLit_subset (lit cs : List Char) : ∀ x ∈ tryOptLit lit cs, x ∈ cs := by
  unfold tryOptLit
  cases h : dropLit lit cs with
  | none => simp
  | some r1 =>
    cases r1 with
    | nil => simp
    | cons c r =>
      by_cases hw : jsWs c
      · simp only [hw, if_true]
        intro x hx
        exact dropLit_subset lit cs (c :: r) h x (List.mem_cons_of_mem _ (skipWs_subset r x hx))
      · simp [hw]

theorem tryCall_length (cs w r : List Char) (h : tryCall cs = some (w, r)) :
    r.length < cs.length := by
  unfold tryCall at h
  by_cases he : (takeWord cs).1.isEmpty
  · simp [he] at h
  · simp only [he, Bool.false_eq_true, if_false] at h
    cases hs : skipWs (takeWord cs).2 with
    | nil => rw [hs] at h; simp at h
    | cons c rest =>
      rw [hs] at h
      dsimp only at h
      by_cases hc : c = '('
      · rw [if_pos hc] at h
        simp only [Option.some.injEq, Prod.mk.injEq] at h
        obtain ⟨-, hr⟩ := h
        subst hr
        have h1 := takeWord_length cs
        have h2 := skipWs_length (takeWord cs).2
        rw [hs] at h2
        simp only [List.length_cons] at h2
        have h3 : (takeWord cs).1.length ≠ 0 := by
          intro h0
          rw [List.isEmpty_iff, ← List.length_eq_zero] at he
          exact he h0
        omega
      · rw [if_neg hc] at h
        simp at h

theorem tryNew_length (cs w r : List Char) (h : tryNew cs = some (w, r)) :
    r.length < cs.length := by
  unfold tryNew at h
  cases hd : dropLit ['n', 'e', 'w'] cs with
  | none => rw [hd] at h; simp at h
  | some r1 =>
    rw [hd] at h
    cases r1 with
    | nil => simp at h
    | cons c r2 =>
      by_cases hw : jsWs c
      · simp only [hw, if_true] at h
        by_cases he : (takeWord (skipWs r2)).1.isEmpty
        · simp [he] at h
        · simp only [he, Bool.false_eq_true, if_false] at h
          cases hs : skipWs (takeWord (skipWs r2)).2 with
          | nil => rw [hs] at h; simp at h
          | cons d rest =>
            rw [hs] at h
            dsimp only at h
            by_cases hc : d = '('
            · rw [if_pos hc] at h
              simp only [Option.some.injEq, Prod.mk.injEq] at h
              obtain ⟨-, hr⟩ := h
              subst hr
              have h0 := dropLit_length ['n', 'e', 'w'] cs (c :: r2) hd
              have h1 := skipWs_length r2
              have h2 := takeWord_length (skipWs r2)
              have h3 := skipWs_length (takeWord (skipWs r2)).2
              rw [hs] at h3
              simp only [List.length_cons] at h0 h3
              omega
            · rw [if_neg hc] at h
              simp at h
      · simp [hw] at h

theorem tryExt_length (cs w r : List Char) (h : tryExt cs = some (w, r)) :
    r.length < cs.length := by
  unfold tryExt at h
  cases cs with
  | nil => simp at h
  | cons c r1 =>
    by_cases hw : jsWs c
    · simp only [hw, if_true] at h
      cases hd : dropLit ['e', 'x', 't', 'e', 'n', 'd', 's'] (skipWs r1) with
      | none => rw [hd] at h; simp at h
      | some r2 =>
        rw [hd] at h
        cases r2 with
        | nil => simp at h
        | cons d r3 =>
          by_cases hw2 : jsWs d
          · simp only [hw2, if_true] at h
            by_cases he : (takeWord (skipWs r3)).1.isEmpty
            · simp [he] at h
            · simp only [he, Bool.false_eq_true, if_false] at h
              simp only [Option.some.injEq, Prod.mk.injEq] at h
              obtain ⟨-, hr⟩ := h
              subst hr
              have h0 := skipWs_length r1
              have h1 := dropLit_length ['e', 'x', 't', 'e', 'n', 'd', 's'] (skipWs r1) (d :: r3) hd
              have h2 := skipWs_length r3
              have h3 := takeWord_length (skipWs r3)
              simp only [List.length_cons] at h1 ⊢
              omega
          · simp [hw2] at h
    · simp [hw] at h

theorem tryClass_length (cs : List Char) (a : List Char × Option (List Char)) (r : List Char)
    (h : tryClass cs = some (a, r)) : r.length < cs.length := by
  unfold tryClass at h
  cases hd : dropLit ['c', 'l', 'a', 's', 's'] cs with
  | none => rw [hd] at h; simp at h
  | some r1 =>
    rw [hd] at h
    cases r1 with
    | nil => simp at h
    | cons c r2 =>
      by_cases hw : jsWs c
      · simp only [hw, if_true] at h
        by_cases he : (takeWord (skipWs r2)).1.isEmpty
        · simp [he] at h
        · simp only [he, Bool.false_eq_true, if_false] at h
          have h0 := dropLit_length ['c', 'l', 'a', 's', 's'] cs (c :: r2) hd
          have h1 := skipWs_length r2
          have h2 := takeWord_length (skipWs r2)
          have h3 : (takeWord (skipWs r2)).1.length ≠ 0 := by
            intro h0'
            rw [List.isEmpty_iff, ← List.length_eq_zero] at he
            exact he h0'
          simp only [List.length_cons] at h0
          cases hx : tryExt (takeWord (skipWs r2)).2 with
          | some q =>
            rw [hx] at h
            simp only [Option.some.injEq, Prod.mk.injEq] at h
            obtain ⟨-, hr⟩ := h
            subst hr
            have h4 := tryExt_length _ q.1 q.2 (by rw [hx])
            omega
          | none =>
            rw [hx] at h
            simp only [Option.some.injEq, Prod.mk.injEq] at h
            obtain ⟨-, hr⟩ := h
            subst hr
            omega
      · simp [hw] at h

theorem tryFunc_length (cs w r : List Char) (h : tryFunc cs = some (w, r)) :
    r.length < cs.length := by
  unfold tryFunc at h
  dsimp only at h
  have hsub1 := tryOptLit_length ['e', 'x', 'p', 'o', 'r', 't'] cs
  have hsub2 := tryOptLit_length ['a', 's', 'y', 'n', 'c'] (tryOptLit ['e', 'x', 'p', 'o', 'r', 't'] cs)
  set cs2 := tryOptLit ['a', 's', 'y', 'n', 'c'] (tryOptLit ['e', 'x', 'p', 'o', 'r', 't'] cs) with hcs2
  cases hd : dropLit ['f', 'u', 'n', 'c', 't', 'i', 'o', 'n'] cs2 with
  | none => rw [hd] at h; simp at h
  | some r1 =>
    rw [hd] at h
    cases r1 with
    | nil => simp at h
    | cons c r2 =>
      by_cases hw : jsWs c
      · simp only [hw, if_true] at h
        by_cases he : (takeWord (skipWs r2)).1.isEmpty
        · simp [he] at h
        · simp only [he, Bool.false_eq_true, if_false] at h
          cases hs : skipWs (takeWord (skipWs r2)).2 with
          | nil => rw [hs] at h; simp at h
          | cons d rest =>
            rw [hs] at h
            dsimp only at h
            by_cases hc : d = '('
            · rw [if_pos hc] at h
              simp only [Option.some.injEq, Prod.mk.injEq] at h
              obtain ⟨-, hr⟩ := h
              subst hr
              have h0 := dropLit_length ['f', 'u', 'n', 'c', 't', 'i', 'o', 'n'] cs2 (c :: r2) hd
              have h1 := skipWs_length r2
              have h2 := takeWord_length (skipWs r2)
              have h3 := skipWs_length (takeWord (skipWs r2)).2
              rw [hs] at h3
              simp only [List.length_cons] at h0 h3
              omega
            · rw [if_neg hc] at h
              simp at h
      · simp [hw] at h

theorem scanGo_fuel {α σ : Type} (tf : List Char → Option (α × List Char))
    (upd : σ → Char → σ)
    (htf : ∀ cs w r, tf cs = some (w, r) → r.length < cs.length) :
    ∀ (n f g : Nat) (s : σ) (cs : List Char), cs.length ≤ n → cs.length < f →
      cs.length < g → scanGo tf upd f s cs = scanGo tf upd g s cs := by
  intro n
  induction n with
  | zero =>
    intro f g s cs h1 h2 h3
    cases cs with
    | nil =>
      obtain ⟨f', rfl⟩ : ∃ f', f = f' + 1 := ⟨f - 1, by omega⟩
      obtain ⟨g', rfl⟩ : ∃ g', g = g' + 1 := ⟨g - 1, by omega⟩
      simp [scanGo]
    | cons c rest => simp at h1
  | succ n ih =>
    intro f g s cs h1 h2 h3
    cases cs with
    | nil =>
      obtain ⟨f', rfl⟩ : ∃ f', f = f' + 1 := ⟨f - 1, by omega⟩
      obtain ⟨g', rfl⟩ : ∃ g', g = g' + 1 := ⟨g - 1, by omega⟩
      simp [scanGo]
    | cons c rest =>
      obtain ⟨f', rfl⟩ : ∃ f', f = f' + 1 := ⟨f - 1, by omega⟩
      obtain ⟨g', rfl⟩ : ∃ g', g = g' + 1 := ⟨g - 1, by omega⟩
      simp only [scanGo]
      simp only [List.length_cons] at h1 h2 h3
      cases hcase : tf (c :: rest) with
      | some wr =>
        obtain ⟨w, r⟩ := wr
        dsimp only
        have hr : r.length < rest.length + 1 := by
          simpa using htf _ _ _ hcase
        rw [ih f' g' s r (by omega) (by omega) (by omega)]
      | none =>
        dsimp only
        exact ih f' g' (upd s c) rest (by omega) (by omega) (by omega)

theorem scanGo_nil {α σ : Type} (tf : List Char → Option (α × List Char))
    (upd : σ → Char → σ) (f : Nat) (s : σ) (h : 0 < f) :
    scanGo tf upd f s [] = [] := by
  obtain ⟨f', rfl⟩ : ∃ f', f = f' + 1 := ⟨f - 1, by omega⟩
  simp [scanGo]

theorem scanGo_cons_some {α σ : Type} (tf : List Char → Option (α × List Char))
    (upd : σ → Char → σ)
    (htf : ∀ cs w r, tf cs = some (w, r) → r.length < cs.length)
    (c : Char) (rest : List Char) (w : α) (r : List Char) (s : σ)
    (h : tf (c :: rest) = some (w, r)) :
    scanGo tf upd ((c :: rest).length + 1) s (c :: rest)
      = (s, w) :: scanGo tf upd (r.length + 1) s r := by
  simp only [List.length_cons, scanGo, h]
  congr 1
  have hr : r.length < rest.length + 1 := by simpa using htf _ _ _ h
  exact scanGo_fuel tf upd htf r.length (rest.length + 1) (r.length + 1) s r le_rfl hr
    (by omega)

theorem scanGo_cons_none {α σ : Type} (tf : List Char → Option (α × List Char))
    (upd : σ → Char → σ) (c : Char) (rest : List Char) (s : σ)
    (h : tf (c :: rest) = none) :
    scanGo tf upd ((c :: rest).length + 1) s (c :: rest)
      = scanGo tf upd (rest.length + 1) (upd s c) rest := by
  simp only [List.length_cons, scanGo, h]

theorem scanGo_noWs {α σ : Type} (tf : List Char → Option (α × List Char))
    (upd : σ → Char → σ)
    (hfail : ∀ cs, (∀ x ∈ cs, jsWs x = false) → tf cs = none) :
    ∀ (cs : List Char), (∀ x ∈ cs, jsWs x = false) → ∀ (f : Nat) (s : σ),
      scanGo tf upd f s cs = [] := by
  intro cs
  induction cs with
  | nil =>
    intro h f s
    cases f with
    | zero => simp [scanGo]
    | succ f' => simp [scanGo]
  | cons c rest ih =>
    intro h f s
    cases f with
    | zero => simp [scanGo]
    | succ f' =>
      simp only [scanGo, hfail _ h]
      exact ih (fun x hx => h x (List.mem_cons_of_mem _ hx)) f' (upd s c)

/-! Character-class facts used when scanning around abstract identifiers. -/

theorem wordChar_not_ws (c : Char) (h : wordChar c = true) : jsWs c = false := by
  by_contra hj
  rw [Bool.not_eq_false] at hj
  simp only [jsWs, Bool.or_eq_true, decide_eq_true_eq] at hj
  rcases hj with ((((h1 | h1) | h1) | h1) | h1) | h1 <;> subst h1 <;>
    exact absurd h (by decide)

theorem wordChar_ne_lparen (c : Char) (h : wordChar c = true) : ¬(c = '(') := by
  intro he; subst he; exact absurd h (by decide)

theorem wordChar_ne_dot (c : Char) (h : wordChar c = true) : (c == '.') = false := by
  have : ¬(c = '.') := by intro he; subst he; exact absurd h (by decide)
  simpa using this

theorem takeWord_word_append (w : List Char) (b : Char) (r : List Char)
    (hw : ∀ x ∈ w, wordChar x = true) (hb : wordChar b = false) :
    takeWord (w ++ b :: r) = (w, b :: r) := by
  induction w with
  | nil => simp [takeWord, hb]
  | cons c w ih =>
    have hc : wordChar c = true := hw c (by simp)
    simp [takeWord, hc, ih (fun x hx => hw x (by simp [hx]))]

theorem skipWs_cons_neg (c : Char) (r : List Char) (h : jsWs c = false) :
    skipWs (c :: r) = c :: r := by
  simp [skipWs, h]

/-! Failure of the declaration matchers on whitespace-free text: each of
classRegex, functionRegex and newRegex requires a `\s` character after its
keyword. -/

theorem tryClass_none_noWs (cs : List Char) (h : ∀ x ∈ cs, jsWs x = false) :
    tryClass cs = none := by
  unfold tryClass
  cases hd : dropLit ['c', 'l', 'a', 's', 's'] cs with
  | none => rfl
  | some r1 =>
    cases r1 with
    | nil => rfl
    | cons c r2 =>
      have hc : jsWs c = false :=
        h c (dropLit_subset _ cs _ hd c (List.mem_cons_self _ _))
      simp [hc]

theorem tryNew_none_noWs (cs : List Char) (h : ∀ x ∈ cs, jsWs x = false) :
    tryNew cs = none := by
  unfold tryNew
  cases hd : dropLit ['n', 'e', 'w'] cs with
  | none => rfl
  | some r1 =>
    cases r1 with
    | nil => rfl
    | cons c r2 =>
      have hc : jsWs c = false :=
        h c (dropLit_subset _ cs _ hd c (List.mem_cons_self _ _))
      simp [hc]

theorem tryFunc_none_noWs (cs : List Char) (h : ∀ x ∈ cs, jsWs x = false) :
    tryFunc cs = none := by
  unfold tryFunc
  dsimp only
  cases hd : dropLit ['f', 'u', 'n', 'c', 't', 'i', 'o', 'n']
      (tryOptLit ['a', 's', 'y', 'n', 'c'] (tryOptLit ['e', 'x', 'p', 'o', 'r', 't'] cs)) with
  | none => rfl
  | some r1 =>
    cases r1 with
    | nil => rfl
    | cons c r2 =>
      have hsub : ∀ x ∈ (c :: r2), x ∈ cs := by
        intro x hx
        exact tryOptLit_subset _ cs x
          (tryOptLit_subset _ _ x (dropLit_subset _ _ _ hd x hx))
      have hc : jsWs c = false := h c (hsub c (List.mem_cons_self _ _))
      simp [hc]

theorem toUpper_of_isUpper (c : Char) (h : c.isUpper = true) : c.toUpper = c := by
  simp only [Char.isUpper, Bool.and_eq_true, decide_eq_true_eq] at h
  unfold Char.toUpper
  rw [if_neg]
  intro hcontra
  obtain ⟨h1, h2⟩ := h
  obtain ⟨h3, h4⟩ := hcontra
  have e3 : c.val.toBitVec.toNat = c.val.toNat := rfl
  rw [ge_iff_le, UInt32.le_def, BitVec.le_def] at h1
  rw [UInt32.le_def, BitVec.le_def] at h2
  rw [e3] at h1 h2
  have e1 : ((65 : UInt32).toBitVec).toNat = 65 := rfl
  have e2 : ((90 : UInt32).toBitVec).toNat = 90 := rfl
  rw [e1] at h1
  rw [e2] at h2
  have h5 : Char.toNat c = c.val.toNat := rfl
  rw [h5] at h3 h4
  omega


/-! Evaluation of the matchers on canonical one-line declaration shapes with
abstract identifiers. -/

theorem tryExt_shape (S : List Char) (b : Char) (r : List Char)
    (hS : S ≠ []) (hSw : ∀ x ∈ S, wordChar x = true) (hb : wordChar b = false) :
    tryExt (' ' :: 'e' :: 'x' :: 't' :: 'e' :: 'n' :: 'd' :: 's' :: ' ' :: (S ++ b :: r))
      = some (S, b :: r) := by
  obtain ⟨s0, S', rfl⟩ := List.exists_cons_of_ne_nil hS
  have hs0 : wordChar s0 = true := hSw s0 (by simp)
  unfold tryExt
  dsimp only
  rw [if_pos (show jsWs ' ' = true from by decide)]
  rw [skipWs_cons_neg _ _ (show jsWs 'e' = false from by decide)]
  simp only [dropLit, if_true]
  rw [if_pos (show jsWs ' ' = true from by decide)]
  rw [show skipWs ((s0 :: S') ++ b :: r) = (s0 :: S') ++ b :: r from by
    rw [List.cons_append]
    exact skipWs_cons_neg _ _ (wordChar_not_ws s0 hs0)]
  rw [takeWord_word_append (s0 :: S') b r hSw hb]
  simp

theorem tryExt_brace (rest : List Char) :
    tryExt (' ' :: '\x7b' :: rest) = none := by
  unfold tryExt
  dsimp only
  rw [if_pos (show jsWs ' ' = true from by decide)]
  rw [skipWs_cons_neg _ _ (show jsWs '\x7b' = false from by decide)]
  simp [dropLit]

theorem tryClass_ext_line (C S rest : List Char) (hC : C ≠ [])
    (hCw : ∀ x ∈ C, wordChar x = true) (hS : S ≠ []) (hSw : ∀ x ∈ S, wordChar x = true) :
    tryClass ('c' :: 'l' :: 'a' :: 's' :: 's' :: ' ' ::
        (C ++ ' ' :: 'e' :: 'x' :: 't' :: 'e' :: 'n' :: 'd' :: 's' :: ' ' :: (S ++ ' ' :: rest)))
      = some ((C, some S), ' ' :: rest) := by
  obtain ⟨c0, C', rfl⟩ := List.exists_cons_of_ne_nil hC
  have hc0 : wordChar c0 = true := hCw c0 (by simp)
  unfold tryClass
  simp only [dropLit, if_true]
  rw [if_pos (show jsWs ' ' = true from by decide)]
  rw [show skipWs ((c0 :: C') ++ ' ' :: 'e' :: 'x' :: 't' :: 'e' :: 'n' :: 'd' :: 's' :: ' ' :: (S ++ ' ' :: rest))
      = (c0 :: C') ++ ' ' :: 'e' :: 'x' :: 't' :: 'e' :: 'n' :: 'd' :: 's' :: ' ' :: (S ++ ' ' :: rest) from by
    rw [List.cons_append]
    exact skipWs_cons_neg _ _ (wordChar_not_ws c0 hc0)]
  rw [takeWord_word_append (c0 :: C') ' '
    ('e' :: 'x' :: 't' :: 'e' :: 'n' :: 'd' :: 's' :: ' ' :: (S ++ ' ' :: rest)) hCw (by decide)]
  simp only [List.isEmpty_cons, Bool.false_eq_true, if_false]
  rw [tryExt_shape S ' ' rest hS hSw (by decide)]

theorem tryClass_plain_line (C rest : List Char) (hC : C ≠ [])
    (hCw : ∀ x ∈ C, wordChar x = true) :
    tryClass ('c' :: 'l' :: 'a' :: 's' :: 's' :: ' ' :: (C ++ ' ' :: '\x7b' :: rest))
      = some ((C, none), ' ' :: '\x7b' :: rest) := by
  obtain ⟨c0, C', rfl⟩ := List.exists_cons_of_ne_nil hC
  have hc0 : wordChar c0 = true := hCw c0 (by simp)
  unfold tryClass
  simp only [dropLit, if_true]
  rw [if_pos (show jsWs ' ' = true from by decide)]
  rw [show skipWs ((c0 :: C') ++ ' ' :: '\x7b' :: rest) = (c0 :: C') ++ ' ' :: '\x7b' :: rest from by
    rw [List.cons_append]
    exact skipWs_cons_neg _ _ (wordChar_not_ws c0 hc0)]
  rw [takeWord_word_append (c0 :: C') ' ' ('\x7b' :: rest) hCw (by decide)]
  simp only [List.isEmpty_cons, Bool.false_eq_true, if_false]
  rw [tryExt_brace rest]

/-- classRegex matches on the canonical `class C extends S \x7b` line. -/
theorem classScan_ext_line (C S : List Char) (hC : C ≠ [])
    (hCw : ∀ x ∈ C, wordChar x = true) (hS : S ≠ []) (hSw : ∀ x ∈ S, wordChar x = true) :
    classScan ('c' :: 'l' :: 'a' :: 's' :: 's' :: ' ' ::
        (C ++ ' ' :: 'e' :: 'x' :: 't' :: 'e' :: 'n' :: 'd' :: 's' :: ' ' :: (S ++ [' ', '\x7b'])))
      = [(C, some S)] := by
  unfold classScan
  have h1 : tryClass ('c' :: 'l' :: 'a' :: 's' :: 's' :: ' ' ::
      (C ++ ' ' :: 'e' :: 'x' :: 't' :: 'e' :: 'n' :: 'd' :: 's' :: ' ' :: (S ++ [' ', '\x7b'])))
      = some ((C, some S), ' ' :: ['\x7b']) := by
    have := tryClass_ext_line C S ['\x7b'] hC hCw hS hSw
    simpa using this
  rw [scanGo_cons_some tryClass (fun _ _ => ()) tryClass_length _ _ _ _ () h1]
  rw [show scanGo tryClass (fun _ _ => ()) ((' ' :: ['\x7b'] : List Char).length + 1) () (' ' :: ['\x7b']) = []
    from by decide]
  rfl

theorem classScan_plain_line (C : List Char) (hC : C ≠ [])
    (hCw : ∀ x ∈ C, wordChar x = true) :
    classScan ('c' :: 'l' :: 'a' :: 's' :: 's' :: ' ' :: (C ++ [' ', '\x7b']))
      = [(C, none)] := by
  unfold classScan
  have h1 : tryClass ('c' :: 'l' :: 'a' :: 's' :: 's' :: ' ' :: (C ++ [' ', '\x7b']))
      = some ((C, none), ' ' :: ['\x7b']) := by
    have := tryClass_plain_line C [] hC hCw
    simpa using this
  rw [scanGo_cons_some tryClass (fun _ _ => ()) tryClass_length _ _ _ _ () h1]
  rw [show scanGo tryClass (fun _ _ => ()) ((' ' :: ['\x7b'] : List Char).length + 1) () (' ' :: ['\x7b']) = []
    from by decide]
  rfl

/-! Helpers for stepping the scanners over concrete characters. -/

theorem takeWord_cons_pos (c : Char) (cs : List Char) (h : wordChar c = true) :
    takeWord (c :: cs) = (c :: (takeWord cs).1, (takeWord cs).2) := by
  simp [takeWord, h]

theorem takeWord_cons_neg (c : Char) (cs : List Char) (h : wordChar c = false) :
    takeWord (c :: cs) = ([], c :: cs) := by
  simp [takeWord, h]

theorem skipWs_cons_pos (c : Char) (cs : List Char) (h : jsWs c = true) :
    skipWs (c :: cs) = skipWs cs := by
  simp [skipWs, h]

theorem tryClass_head_ne (c : Char) (rest : List Char) (h : ¬(c = 'c')) :
    tryClass (c :: rest) = none := by
  unfold tryClass
  simp [dropLit, h]

theorem tryNew_head_ne (c : Char) (rest : List Char) (h : ¬(c = 'n')) :
    tryNew (c :: rest) = none := by
  unfold tryNew
  simp [dropLit, h]

theorem tryFunc_head_ne (c : Char) (rest : List Char)
    (h1 : ¬(c = 'e')) (h2 : ¬(c = 'a')) (h3 : ¬(c = 'f')) :
    tryFunc (c :: rest) = none := by
  unfold tryFunc tryOptLit
  simp [dropLit, h1, h2, h3]

theorem tryFunc_ew (rest : List Char) : tryFunc ('e' :: 'w' :: rest) = none := by
  unfold tryFunc tryOptLit
  simp [dropLit]

/-! The `new X()` line of C10. -/

theorem tryCall_new_word (X : List Char) (hX : X ≠ [])
    (hXw : ∀ x ∈ X, wordChar x = true) :
    tryCall (X ++ '(' :: ')' :: []) = some (X, [')']) := by
  obtain ⟨x0, X', rfl⟩ := List.exists_cons_of_ne_nil hX
  unfold tryCall
  rw [takeWord_word_append (x0 :: X') '(' [')'] hXw (by decide)]
  simp only [List.isEmpty_cons, Bool.false_eq_true, if_false]
  rw [skipWs_cons_neg _ _ (show jsWs '(' = false from by decide)]
  rfl

theorem tryCall_new_head (X : List Char) (hX : X ≠ [])
    (hXw : ∀ x ∈ X, wordChar x = true) :
    tryCall ('n' :: 'e' :: 'w' :: ' ' :: (X ++ '(' :: ')' :: [])) = none := by
  obtain ⟨x0, X', rfl⟩ := List.exists_cons_of_ne_nil hX
  have hx0 : wordChar x0 = true := hXw x0 (by simp)
  unfold tryCall
  rw [takeWord_cons_pos _ _ (by decide), takeWord_cons_pos _ _ (by decide),
      takeWord_cons_pos _ _ (by decide), takeWord_cons_neg _ _ (by decide)]
  dsimp only
  rw [skipWs_cons_pos _ _ (by decide)]
  rw [show skipWs ((x0 :: X') ++ '(' :: ')' :: []) = (x0 :: X') ++ '(' :: ')' :: [] from by
    rw [List.cons_append]
    exact skipWs_cons_neg _ _ (wordChar_not_ws x0 hx0)]
  rw [List.cons_append]
  dsimp only
  rw [if_neg (wordChar_ne_lparen x0 hx0)]
  simp

theorem tryCall_ew_head (X : List Char) (hX : X ≠ [])
    (hXw : ∀ x ∈ X, wordChar x = true) :
    tryCall ('e' :: 'w' :: ' ' :: (X ++ '(' :: ')' :: [])) = none := by
  obtain ⟨x0, X', rfl⟩ := List.exists_cons_of_ne_nil hX
  have hx0 : wordChar x0 = true := hXw x0 (by simp)
  unfold tryCall
  rw [takeWord_cons_pos _ _ (by decide), takeWord_cons_pos _ _ (by decide),
      takeWord_cons_neg _ _ (by decide)]
  dsimp only
  rw [skipWs_cons_pos _ _ (by decide)]
  rw [show skipWs ((x0 :: X') ++ '(' :: ')' :: []) = (x0 :: X') ++ '(' :: ')' :: [] from by
    rw [List.cons_append]
    exact skipWs_cons_neg _ _ (wordChar_not_ws x0 hx0)]
  rw [List.cons_append]
  dsimp only
  rw [if_neg (wordChar_ne_lparen x0 hx0)]
  simp

theorem tryCall_w_head (X : List Char) (hX : X ≠ [])
    (hXw : ∀ x ∈ X, wordChar x = true) :
    tryCall ('w' :: ' ' :: (X ++ '(' :: ')' :: [])) = none := by
  obtain ⟨x0, X', rfl⟩ := List.exists_cons_of_ne_nil hX
  have hx0 : wordChar x0 = true := hXw x0 (by simp)
  unfold tryCall
  rw [takeWord_cons_pos _ _ (by decide), takeWord_cons_neg _ _ (by decide)]
  dsimp only
  rw [skipWs_cons_pos _ _ (by decide)]
  rw [show skipWs ((x0 :: X') ++ '(' :: ')' :: []) = (x0 :: X') ++ '(' :: ')' :: [] from by
    rw [List.cons_append]
    exact skipWs_cons_neg _ _ (wordChar_not_ws x0 hx0)]
  rw [List.cons_append]
  dsimp only
  rw [if_neg (wordChar_ne_lparen x0 hx0)]
  simp

theorem tryCall_ws_head (rest : List Char) : tryCall (' ' :: rest) = none := by
  unfold tryCall
  rw [takeWord_cons_neg _ _ (by decide)]
  simp

theorem callScan_new_line (X : List Char) (hX : X ≠ [])
    (hXw : ∀ x ∈ X, wordChar x = true) :
    callScan ('n' :: 'e' :: 'w' :: ' ' :: (X ++ '(' :: ')' :: [])) = [(false, X)] := by
  unfold callScan
  rw [scanGo_cons_none _ _ _ _ _ (tryCall_new_head X hX hXw)]
  rw [scanGo_cons_none _ _ _ _ _ (tryCall_ew_head X hX hXw)]
  rw [scanGo_cons_none _ _ _ _ _ (tryCall_w_head X hX hXw)]
  rw [scanGo_cons_none _ _ _ _ _ (tryCall_ws_head _)]
  simp only [show ∀ d : Bool, (fun d c => d || (c == '.')) d 'n' = d from by decide,
    show ∀ d : Bool, (fun d c => d || (c == '.')) d 'e' = d from by decide,
    show ∀ d : Bool, (fun d c => d || (c == '.')) d 'w' = d from by decide,
    show ∀ d : Bool, (fun d c => d || (c == '.')) d ' ' = d from by decide]
  obtain ⟨x0, X', rfl⟩ := List.exists_cons_of_ne_nil hX
  rw [List.cons_append]
  rw [scanGo_cons_some tryCall _ tryCall_length _ _ _ _ false
    (by rw [← List.cons_append]; exact tryCall_new_word (x0 :: X') hX hXw)]
  rfl

theorem tryNew_new_line (X : List Char) (hX : X ≠ [])
    (hXw : ∀ x ∈ X, wordChar x = true) :
    tryNew ('n' :: 'e' :: 'w' :: ' ' :: (X ++ '(' :: ')' :: [])) = some (X, [')']) := by
  obtain ⟨x0, X', rfl⟩ := List.exists_cons_of_ne_nil hX
  have hx0 : wordChar x0 = true := hXw x0 (by simp)
  unfold tryNew
  simp only [dropLit, if_true]
  rw [if_pos (show jsWs ' ' = true from by decide)]
  rw [show skipWs ((x0 :: X') ++ '(' :: ')' :: []) = (x0 :: X') ++ '(' :: ')' :: [] from by
    rw [List.cons_append]
    exact skipWs_cons_neg _ _ (wordChar_not_ws x0 hx0)]
  rw [takeWord_word_append (x0 :: X') '(' [')'] hXw (by decide)]
  simp only [List.isEmpty_cons, Bool.false_eq_true, if_false]
  rw [skipWs_cons_neg _ _ (show jsWs '(' = false from by decide)]
  rfl

theorem newScan_new_line (X : List Char) (hX : X ≠ [])
    (hXw : ∀ x ∈ X, wordChar x = true) :
    newScan ('n' :: 'e' :: 'w' :: ' ' :: (X ++ '(' :: ')' :: [])) = [X] := by
  unfold newScan
  rw [scanGo_cons_some tryNew (fun _ _ => ()) tryNew_length _ _ _ _ ()
    (tryNew_new_line X hX hXw)]
  rw [show scanGo tryNew (fun _ _ => ()) (([')'] : List Char).length + 1) () [')'] = []
    from by decide]
  rfl

theorem noWs_word_parens (X : List Char) (hXw : ∀ x ∈ X, wordChar x = true) :
    ∀ x ∈ X ++ '(' :: ')' :: [], jsWs x = false := by
  intro x hx
  rcases List.mem_append.mp hx with hx | hx
  · exact wordChar_not_ws x (hXw x hx)
  · rcases List.mem_cons.mp hx with rfl | hx
    · decide
    · rcases List.mem_cons.mp hx with rfl | hx
      · decide
      · simp at hx

theorem classScan_new_line (X : List Char) (hX : X ≠ [])
    (hXw : ∀ x ∈ X, wordChar x = true) :
    classScan ('n' :: 'e' :: 'w' :: ' ' :: (X ++ '(' :: ')' :: [])) = [] := by
  unfold classScan
  rw [scanGo_cons_none _ _ _ _ _ (tryClass_head_ne 'n' _ (by decide))]
  rw [scanGo_cons_none _ _ _ _ _ (tryClass_head_ne 'e' _ (by decide))]
  rw [scanGo_cons_none _ _ _ _ _ (tryClass_head_ne 'w' _ (by decide))]
  rw [scanGo_cons_none _ _ _ _ _ (tryClass_head_ne ' ' _ (by decide))]
  rw [scanGo_noWs tryClass _ tryClass_none_noWs _ (noWs_word_parens X hXw)]
  rfl

theorem funcScan_new_line (X : List Char) (hX : X ≠ [])
    (hXw : ∀ x ∈ X, wordChar x = true) :
    funcScan ('n' :: 'e' :: 'w' :: ' ' :: (X ++ '(' :: ')' :: [])) = [] := by
  unfold funcScan
  rw [scanGo_cons_none _ _ _ _ _ (tryFunc_head_ne 'n' _ (by decide) (by decide) (by decide))]
  rw [scanGo_cons_none _ _ _ _ _ (tryFunc_ew _)]
  rw [scanGo_cons_none _ _ _ _ _ (tryFunc_head_ne 'w' _ (by decide) (by decide) (by decide))]
  rw [scanGo_cons_none _ _ _ _ _ (tryFunc_head_ne ' ' _ (by decide) (by decide) (by decide))]
  rw [scanGo_noWs tryFunc _ tryFunc_none_noWs _ (noWs_word_parens X hXw)]
  rfl


/-! ## Lemmas about the PHP token handlers -/

theorem phpNameScan_append (l : List PhpTok) (h : ∀ u ∈ l, arrNonStr u)
    (nm : String) (nl : Nat) (r : List PhpTok) :
    phpNameScan (l ++ PhpTok.arr .T_STRING nm nl :: r) = some (nm, r) := by
  induction l with
  | nil => simp [phpNameScan]
  | cons u l ih =>
    cases u with
    | ch s => exact absurd (h _ (List.mem_cons_self _ _)) (by simp [arrNonStr])
    | arr ty txt li =>
      have hty : ty ≠ .T_STRING := h _ (List.mem_cons_self _ _)
      simp only [List.cons_append, phpNameScan, hty, if_false]
      exact ih (fun u hu => h u (List.mem_cons_of_mem _ hu))

theorem extScan_skip (l : List PhpTok) (h : ∀ u ∈ l, notBraceExt u)
    (a : String) (b : Nat) (r : List PhpTok) :
    extScan false (l ++ PhpTok.arr .T_EXTENDS a b :: r) = extScan true r := by
  induction l with
  | nil => simp [extScan]
  | cons u l ih =>
    cases u with
    | ch s =>
      have hs : s ≠ "\x7b" := h _ (List.mem_cons_self _ _)
      simp only [List.cons_append, extScan, hs, if_false]
      exact ih (fun u hu => h u (List.mem_cons_of_mem _ hu))
    | arr ty txt li =>
      have hty : ty ≠ .T_EXTENDS := h _ (List.mem_cons_self _ _)
      simp only [List.cons_append, extScan, hty, if_false]
      exact ih (fun u hu => h u (List.mem_cons_of_mem _ hu))

theorem extScan_inner (l : List PhpTok) (h : ∀ u ∈ l, arrNonStr u)
    (s : String) (sl : Nat) (r : List PhpTok) :
    extScan true (l ++ PhpTok.arr .T_STRING s sl :: r) = s :: extScan false r := by
  induction l with
  | nil => simp [extScan]
  | cons u l ih =>
    cases u with
    | ch c => exact absurd (h _ (List.mem_cons_self _ _)) (by simp [arrNonStr])
    | arr ty txt li =>
      have hty : ty ≠ .T_STRING := h _ (List.mem_cons_self _ _)
      simp only [List.cons_append, extScan, hty, if_false]
      exact ih (fun u hu => h u (List.mem_cons_of_mem _ hu))

theorem extScan_stop (l : List PhpTok) (h : ∀ u ∈ l, notBraceExt u)
    (r : List PhpTok) :
    extScan false (l ++ PhpTok.ch "\x7b" :: r) = [] := by
  induction l with
  | nil => simp [extScan]
  | cons u l ih =>
    cases u with
    | ch s =>
      have hs : s ≠ "\x7b" := h _ (List.mem_cons_self _ _)
      simp only [List.cons_append, extScan, hs, if_false]
      exact ih (fun u hu => h u (List.mem_cons_of_mem _ hu))
    | arr ty txt li =>
      have hty : ty ≠ .T_EXTENDS := h _ (List.mem_cons_self _ _)
      simp only [List.cons_append, extScan, hty, if_false]
      exact ih (fun u hu => h u (List.mem_cons_of_mem _ hu))

/-- The T_CLASS branch on a header that declares exactly one superclass. -/
theorem phpClassHandle_ext (st : PhpState) (line : Nat)
    (wsA : List PhpTok) (hA : ∀ u ∈ wsA, arrNonStr u) (nm : String) (nl : Nat)
    (u1 : List PhpTok) (h1 : ∀ u ∈ u1, notBraceExt u) (a : String) (b : Nat)
    (u2 : List PhpTok) (h2 : ∀ u ∈ u2, arrNonStr u) (sup : String) (sl : Nat)
    (u3 : List PhpTok) (h3 : ∀ u ∈ u3, notBraceExt u) (tail : List PhpTok) :
    phpClassHandle st line
      (wsA ++ PhpTok.arr .T_STRING nm nl ::
        (u1 ++ PhpTok.arr .T_EXTENDS a b ::
          (u2 ++ PhpTok.arr .T_STRING sup sl :: (u3 ++ PhpTok.ch "\x7b" :: tail))))
      = ({ st with currentClass := some (phpQualify st.ns nm) },
         ⟨[⟨phpQualify st.ns nm, line⟩], [], [],
          [⟨phpQualify st.ns nm, sup, "extends", line⟩]⟩) := by
  unfold phpClassHandle
  rw [phpNameScan_append wsA hA]
  dsimp only
  rw [extScan_skip u1 h1, extScan_inner u2 h2, extScan_stop u3 h3]
  simp

/-- The T_CLASS branch on a header with no extends clause. -/
theorem phpClassHandle_plain (st : PhpState) (line : Nat)
    (wsA : List PhpTok) (hA : ∀ u ∈ wsA, arrNonStr u) (nm : String) (nl : Nat)
    (u0 : List PhpTok) (h0 : ∀ u ∈ u0, notBraceExt u) (tail : List PhpTok) :
    phpClassHandle st line
      (wsA ++ PhpTok.arr .T_STRING nm nl :: (u0 ++ PhpTok.ch "\x7b" :: tail))
      = ({ st with currentClass := some (phpQualify st.ns nm) },
         ⟨[⟨phpQualify st.ns nm, line⟩], [], [], []⟩) := by
  unfold phpClassHandle
  rw [phpNameScan_append wsA hA]
  dsimp only
  rw [extScan_stop u0 h0]
  simp

/-! Caller attribution in the PHP call-handler branches. -/

theorem phpNewHandle_mem (st : PhpState) (line : Nat) (rest : List PhpTok)
    (e : EdgeRec) (h : e ∈ phpNewHandle st line rest) :
    phpTruthy (phpCaller st) = true ∧ e.source = phpStr (phpCaller st) ∧
      e.type = "instantiates" := by
  unfold phpNewHandle at h
  cases hn : phpNameScan rest with
  | none => rw [hn] at h; simp at h
  | some p =>
    rw [hn] at h
    dsimp only at h
    by_cases hc : phpTruthy (phpCaller st)
    · rw [if_pos hc] at h
      rcases List.mem_singleton.mp h with rfl
      exact ⟨hc, rfl, rfl⟩
    · rw [if_neg hc] at h
      simp at h

theorem phpDColonHandle_mem (st : PhpState) (line : Nat) (prev : Option PhpTok)
    (rest : List PhpTok) (e : EdgeRec) (h : e ∈ phpDColonHandle st line prev rest) :
    phpTruthy (phpCaller st) = true ∧ e.source = phpStr (phpCaller st) ∧
      e.type = "static_call" := by
  unfold phpDColonHandle at h
  dsimp only at h
  split at h
  · by_cases hc : phpTruthy (phpCaller st)
    · rw [if_pos hc] at h
      rcases List.mem_singleton.mp h with rfl
      exact ⟨hc, rfl, rfl⟩
    · rw [if_neg hc] at h
      simp at h
  · simp at h

theorem phpObjHandle_mem (st : PhpState) (line : Nat) (rest : List PhpTok)
    (e : EdgeRec) (h : e ∈ phpObjHandle st line rest) :
    phpTruthy (phpCaller st) = true ∧ e.source = phpStr (phpCaller st) ∧
      e.type = "method_call" := by
  unfold phpObjHandle at h
  split at h
  · rename_i t s l rest2 heq
    split at h
    · by_cases hc : phpTruthy (phpCaller st)
      · rw [if_pos hc] at h
        rcases List.mem_singleton.mp h with rfl
        exact ⟨hc, rfl, rfl⟩
      · rw [if_neg hc] at h
        simp at h
    · simp at h
  · simp at h

theorem phpCaller_none (st : PhpState) (hm : st.currentMethod = none)
    (hf : st.currentFunction = none) (hc : st.currentClass = none) :
    phpCaller st = none := by
  simp [phpCaller, phpElvis, hm, hf, hc, phpTruthy]

theorem phpNewHandle_nil (st : PhpState) (line : Nat) (rest : List PhpTok)
    (h : phpTruthy (phpCaller st) = false) : phpNewHandle st line rest = [] := by
  unfold phpNewHandle
  cases hn : phpNameScan rest with
  | none => rfl
  | some p => simp [h]

theorem phpDColonHandle_nil (st : PhpState) (line : Nat) (prev : Option PhpTok)
    (rest : List PhpTok) (h : phpTruthy (phpCaller st) = false) :
    phpDColonHandle st line prev rest = [] := by
  unfold phpDColonHandle
  dsimp only
  split
  · simp [h]
  · rfl

theorem phpObjHandle_nil (st : PhpState) (line : Nat) (rest : List PhpTok)
    (h : phpTruthy (phpCaller st) = false) : phpObjHandle st line rest = [] := by
  unfold phpObjHandle
  split
  · split
    · simp [h]
    · rfl
  · rfl

/-- The method/function/class priority of the caller expression. -/
theorem phpCaller_method (st : PhpState) (m : String) (hm : st.currentMethod = some m)
    (hne : m ≠ "") : phpCaller st = some m := by
  simp [phpCaller, phpElvis, hm, phpTruthy, hne]

theorem phpCaller_function (st : PhpState) (f : String)
    (hm : phpTruthy st.currentMethod = false) (hf : st.currentFunction = some f)
    (hne : f ≠ "") : phpCaller st = some f := by
  unfold phpCaller phpElvis
  rw [hm]
  simp only [Bool.false_eq_true, if_false]
  rw [hf]
  rw [show phpTruthy (some f) = true from by simp [phpTruthy, hne]]
  simp

theorem phpCaller_class (st : PhpState) (c : String)
    (hm : phpTruthy st.currentMethod = false) (hf : phpTruthy st.currentFunction = false)
    (hc : st.currentClass = some c) : phpCaller st = some c := by
  unfold phpCaller phpElvis
  rw [hm, hf, hc]
  simp

/-! `$currentFunction` is never cleared by any step of the PHP loop. -/

theorem phpClassHandle_function (st : PhpState) (line : Nat) (rest : List PhpTok) :
    (phpClassHandle st line rest).1.currentFunction = st.currentFunction := by
  unfold phpClassHandle
  cases phpNameScan rest with
  | none => rfl
  | some p => rfl

theorem phpFuncHandle_function_isSome (st : PhpState) (line : Nat) (rest : List PhpTok)
    (h : st.currentFunction.isSome = true) :
    (phpFuncHandle st line rest).1.currentFunction.isSome = true := by
  unfold phpFuncHandle
  cases phpNameScan rest with
  | none => exact h
  | some p =>
    dsimp only
    by_cases hc : phpTruthy st.currentClass
    · simp only [hc, if_true]
      exact h
    · simp only [hc, Bool.false_eq_true, if_false]
      rfl

theorem phpStepTok_function_isSome (before : List PhpTok) (prev : Option PhpTok)
    (st : PhpState) (t : PhpTok) (rest : List PhpTok)
    (h : st.currentFunction.isSome = true) :
    ((phpStepTok before prev st t rest).1.currentFunction).isSome = true := by
  cases t with
  | ch s => exact h
  | arr ty txt line =>
    unfold phpStepTok
    dsimp only
    simp only [show (PhpTok.arr ty txt line = PhpTok.ch "\x7d") = False from by simp,
      decide_False, Bool.false_and, Bool.false_eq_true, if_false]
    repeat' split
    all_goals first
      | (rw [phpClassHandle_function]; exact h)
      | (exact phpFuncHandle_function_isSome st line rest h)
      | exact h

/-! Loop-level persistence of `$currentFunction`. -/

theorem phpLoop_function_isSome (toks : List PhpTok) :
    ∀ (before : List PhpTok) (prev : Option PhpTok) (st : PhpState),
      st.currentFunction.isSome = true →
      ((phpLoop before prev st toks).1.currentFunction).isSome = true := by
  induction toks with
  | nil => intro before prev st h; exact h
  | cons t rest ih =>
    intro before prev st h
    exact ih _ _ _ (phpStepTok_function_isSome before prev st t rest h)

/-! ## Lemmas about the JS per-line handlers -/

theorem jsCaller_none (st : JSState) (hm : st.currentMethod = none)
    (hf : st.currentFunction = none) (hc : st.currentClass = none) :
    jsCaller st = none := by
  simp [jsCaller, jsOr, hm, hf, hc, jsTruthy]

theorem jsCaller_method (st : JSState) (m : String) (hm : st.currentMethod = some m)
    (hne : m ≠ "") : jsCaller st = some m := by
  unfold jsCaller jsOr
  rw [hm]
  rw [show jsTruthy (some m) = true from by simp [jsTruthy, hne]]
  simp

theorem jsCaller_function (st : JSState) (f : String)
    (hm : jsTruthy st.currentMethod = false) (hf : st.currentFunction = some f)
    (hne : f ≠ "") : jsCaller st = some f := by
  unfold jsCaller jsOr
  rw [hm]
  simp only [Bool.false_eq_true, if_false]
  rw [hf]
  rw [show jsTruthy (some f) = true from by simp [jsTruthy, hne]]
  simp

theorem jsCaller_class (st : JSState) (c : String)
    (hm : jsTruthy st.currentMethod = false) (hf : jsTruthy st.currentFunction = false)
    (hc : st.currentClass = some c) : jsCaller st = some c := by
  unfold jsCaller jsOr
  rw [hm, hf, hc]
  simp

theorem jsCallEdges_mem (st : JSState) (n : Nat) (line : List Char) (e : EdgeRec)
    (h : e ∈ jsCallEdges st n line) :
    jsTruthy (jsCaller st) = true ∧ e.source = jsStr (jsCaller st) ∧
    ∃ w : List Char, (∃ d : Bool, (d, w) ∈ callScan line) ∧
      (w.asString == "console") = false ∧
      (w.asString == "require") = false ∧ (w.asString == "import") = false ∧
      ((e.type = "method_call" ∧ e.target = "*." ++ w.asString) ∨
       (e.type = "instantiates" ∧ e.target = w.asString)) := by
  unfold jsCallEdges at h
  rcases List.mem_filterMap.mp h with ⟨dw, hdw, heq⟩
  dsimp only at heq
  cases hguard : (jsTruthy (jsCaller st) && !(dw.2.asString == "console") &&
      !(dw.2.asString == "require") && !(dw.2.asString == "import")) with
  | false => rw [hguard] at heq; simp at heq
  | true =>
    rw [hguard] at heq
    simp only [if_true] at heq
    have hparts := hguard
    simp only [Bool.and_eq_true, Bool.not_eq_true'] at hparts
    obtain ⟨⟨⟨ht, hc1⟩, hc2⟩, hc3⟩ := hparts
    refine ⟨ht, ?_⟩
    cases hdot : dw.1 with
    | true =>
      rw [hdot] at heq
      simp only [if_true] at heq
      cases heq
      exact ⟨rfl, dw.2, ⟨dw.1, hdw⟩, hc1, hc2, hc3, Or.inl ⟨rfl, rfl⟩⟩
    | false =>
      rw [hdot] at heq
      simp only [Bool.false_eq_true, if_false] at heq
      cases hw2 : dw.2 with
      | nil => rw [hw2] at heq; simp at heq
      | cons c l =>
        rw [hw2] at heq
        dsimp only at heq
        by_cases hup : c.toUpper = c
        · rw [if_pos hup] at heq
          cases heq
          rw [hw2] at hc1 hc2 hc3
          exact ⟨rfl, c :: l, ⟨dw.1, by rw [← hw2]; exact hdw⟩, hc1, hc2, hc3,
            Or.inr ⟨rfl, rfl⟩⟩
        · rw [if_neg hup] at heq
          simp at heq

theorem jsNewEdges_mem (st : JSState) (n : Nat) (line : List Char) (e : EdgeRec)
    (h : e ∈ jsNewEdges st n line) :
    jsTruthy (jsCaller st) = true ∧ e.source = jsStr (jsCaller st) ∧
      e.type = "instantiates" := by
  unfold jsNewEdges at h
  rcases List.mem_filterMap.mp h with ⟨w, hw, heq⟩
  dsimp only at heq
  by_cases hc : jsTruthy (jsCaller st)
  · rw [if_pos hc] at heq
    cases heq
    exact ⟨hc, rfl, rfl⟩
  · rw [if_neg hc] at heq
    simp at heq

theorem jsCallEdges_nil (st : JSState) (n : Nat) (line : List Char)
    (h : jsTruthy (jsCaller st) = false) : jsCallEdges st n line = [] := by
  unfold jsCallEdges
  rw [List.filterMap_eq_nil]
  intro dw hdw
  dsimp only
  rw [h]
  simp

theorem jsNewEdges_nil (st : JSState) (n : Nat) (line : List Char)
    (h : jsTruthy (jsCaller st) = false) : jsNewEdges st n line = [] := by
  unfold jsNewEdges
  rw [List.filterMap_eq_nil]
  intro w hw
  dsimp only
  rw [h]
  simp

/-! State effects of the class/function sections and brace tracking. -/

theorem jsClassSection_function (st : JSState) (n : Nat)
    (ms : List (List Char × Option (List Char))) :
    (jsClassSection st n ms).1.currentFunction = st.currentFunction := by
  induction ms generalizing st with
  | nil => rfl
  | cons m rest ih =>
    obtain ⟨c, ext⟩ := m
    exact ih _

theorem jsFuncSection_function_isSome (st : JSState) (n : Nat) (fs : List (List Char))
    (h : st.currentFunction.isSome = true) :
    ((jsFuncSection st n fs).1.currentFunction).isSome = true := by
  induction fs generalizing st with
  | nil => exact h
  | cons f rest ih =>
    unfold jsFuncSection
    by_cases hic : st.inClass
    · simp only [hic, if_true]
      exact ih _ h
    · simp only [hic, Bool.false_eq_true, if_false]
      exact ih _ (by simp)

theorem jsBraceStep_function (st : JSState) (line : List Char) :
    (jsBraceStep st line).currentFunction = st.currentFunction := by
  unfold jsBraceStep
  dsimp only
  split <;> rfl

theorem processLine_function_isSome (st : JSState) (n : Nat) (line : List Char)
    (h : st.currentFunction.isSome = true) :
    ((processLine st n line).1.currentFunction).isSome = true := by
  unfold processLine
  dsimp only
  rw [jsBraceStep_function]
  apply jsFuncSection_function_isSome
  rw [jsClassSection_function]
  exact h

theorem runLines_function_isSome (lines : List (List Char)) :
    ∀ (st : JSState) (n : Nat), st.currentFunction.isSome = true →
      ((runLines st n lines).1.currentFunction).isSome = true := by
  induction lines with
  | nil => intro st n h; exact h
  | cons l ls ih =>
    intro st n h
    exact ih _ _ (processLine_function_isSome st n l h)

/-! The call/new handlers on the `new X()` line. -/

theorem asString_beq_of_head (hd : Char) (tl : List Char) (s : String) (c0 : Char)
    (t0 : List Char) (hs : s.data = c0 :: t0) (hne : hd ≠ c0) :
    ((hd :: tl).asString == s) = false := by
  rw [beq_eq_false_iff_ne]
  intro he
  have h2 : hd :: tl = s.data := by
    have h3 := congrArg String.toList he
    rwa [List.toList_asString] at h3
  rw [hs] at h2
  exact hne (List.head_eq_of_cons_eq h2)

theorem upper_not_console (hd : Char) (tl : List Char) (hu : hd.isUpper = true) :
    ((hd :: tl).asString == "console") = false := by
  refine asString_beq_of_head hd tl "console" 'c' "onsole".data rfl ?_
  intro he
  subst he
  exact absurd hu (by decide)

theorem upper_not_require (hd : Char) (tl : List Char) (hu : hd.isUpper = true) :
    ((hd :: tl).asString == "require") = false := by
  refine asString_beq_of_head hd tl "require" 'r' "equire".data rfl ?_
  intro he
  subst he
  exact absurd hu (by decide)

theorem upper_not_import (hd : Char) (tl : List Char) (hu : hd.isUpper = true) :
    ((hd :: tl).asString == "import") = false := by
  refine asString_beq_of_head hd tl "import" 'i' "mport".data rfl ?_
  intro he
  subst he
  exact absurd hu (by decide)

theorem jsCallEdges_new_line (st : JSState) (n : Nat) (hd : Char) (tl : List Char)
    (hu : hd.isUpper = true) (hw : ∀ x ∈ hd :: tl, wordChar x = true)
    (hc : jsTruthy (jsCaller st) = true) :
    jsCallEdges st n ('n' :: 'e' :: 'w' :: ' ' :: ((hd :: tl) ++ '(' :: ')' :: []))
      = [⟨jsStr (jsCaller st), (hd :: tl).asString, "instantiates", n⟩] := by
  unfold jsCallEdges
  rw [callScan_new_line (hd :: tl) (by simp) hw]
  rw [List.filterMap_cons]
  dsimp only
  rw [hc, upper_not_console hd tl hu, upper_not_require hd tl hu, upper_not_import hd tl hu]
  simp only [Bool.not_false, Bool.and_true, Bool.and_self, if_true,
    Bool.false_eq_true, if_false]
  rw [if_pos (toUpper_of_isUpper hd hu)]
  rfl

theorem jsNewEdges_new_line (st : JSState) (n : Nat) (X : List Char) (hX : X ≠ [])
    (hXw : ∀ x ∈ X, wordChar x = true) (hc : jsTruthy (jsCaller st) = true) :
    jsNewEdges st n ('n' :: 'e' :: 'w' :: ' ' :: (X ++ '(' :: ')' :: []))
      = [⟨jsStr (jsCaller st), X.asString, "instantiates", n⟩] := by
  unfold jsNewEdges
  rw [newScan_new_line X hX hXw]
  rw [List.filterMap_cons]
  dsimp only
  rw [hc]
  simp

/-! The class/function sections on scan results that matter for the claims. -/

theorem jsClassSection_single_ext (st : JSState) (n : Nat) (C S : List Char) :
    jsClassSection st n [(C, some S)]
      = ({ st with currentClass := some C.asString, inClass := true },
         [⟨C.asString, n, some S.asString⟩],
         [⟨C.asString, S.asString, "extends", n⟩]) := rfl

theorem jsClassSection_single_plain (st : JSState) (n : Nat) (C : List Char) :
    jsClassSection st n [(C, none)]
      = ({ st with currentClass := some C.asString, inClass := true },
         [⟨C.asString, n, none⟩], []) := rfl

theorem jsClassSection_nil (st : JSState) (n : Nat) :
    jsClassSection st n [] = (st, [], []) := rfl

theorem jsFuncSection_nil (st : JSState) (n : Nat) :
    jsFuncSection st n [] = (st, [], []) := rfl

theorem jsCallEdges_filter_extends (st : JSState) (n : Nat) (line : List Char) :
    (jsCallEdges st n line).filter (fun e => e.type == "extends") = [] := by
  rw [List.filter_eq_nil]
  intro e he
  rcases jsCallEdges_mem st n line e he with ⟨-, -, w, -, -, -, -, hty⟩
  rcases hty with ⟨hty, -⟩ | ⟨hty, -⟩ <;> simp [hty]

theorem jsNewEdges_filter_extends (st : JSState) (n : Nat) (line : List Char) :
    (jsNewEdges st n line).filter (fun e => e.type == "extends") = [] := by
  rw [List.filter_eq_nil]
  intro e he
  rcases jsNewEdges_mem st n line e he with ⟨-, -, hty⟩
  simp [hty]

theorem map_fst_singleton (m : List (String × GNode)) (k : String)
    (h : m.map Prod.fst = [k]) : ∃ v, m = [(k, v)] := by
  cases m with
  | nil => simp at h
  | cons p rest =>
    obtain ⟨k0, v0⟩ := p
    simp only [List.map_cons, List.cons.injEq] at h
    obtain ⟨rfl, h2⟩ := h
    rw [List.map_eq_nil] at h2
    subst h2
    exact ⟨v0, rfl⟩


/-! The main-loop dispatch reaches each branch unchanged (the trailing reset
guard compares an array token with the string token `\x7d` and is therefore
never taken). -/

theorem phpStepTok_class (before : List PhpTok) (prev : Option PhpTok) (st : PhpState)
    (txt : String) (line : Nat) (rest : List PhpTok) :
    phpStepTok before prev st (PhpTok.arr .T_CLASS txt line) rest
      = phpClassHandle st line rest := rfl

theorem phpStepTok_func (before : List PhpTok) (prev : Option PhpTok) (st : PhpState)
    (txt : String) (line : Nat) (rest : List PhpTok) :
    phpStepTok before prev st (PhpTok.arr .T_FUNCTION txt line) rest
      = phpFuncHandle st line rest := rfl

theorem phpStepTok_new (before : List PhpTok) (prev : Option PhpTok) (st : PhpState)
    (txt : String) (line : Nat) (rest : List PhpTok) :
    phpStepTok before prev st (PhpTok.arr .T_NEW txt line) rest
      = (st, ⟨[], [], [], phpNewHandle st line rest⟩) := rfl

/-- C3: every call or instantiation occurrence recognized by either extractor
takes its edge source from the fixed priority `method, else function, else
class`; when none of the three is set, no edge is emitted. -/
theorem c3_caller_priority :
    (∀ (st : JSState) (n : Nat) (line : List Char) (e : EdgeRec),
        e ∈ jsCallEdges st n line ++ jsNewEdges st n line →
        jsTruthy (jsCaller st) = true ∧ e.source = jsStr (jsCaller st))
    ∧ (∀ (st : JSState) (m : String), st.currentMethod = some m → m ≠ "" →
        jsCaller st = some m)
    ∧ (∀ (st : JSState) (f : String), jsTruthy st.currentMethod = false →
        st.currentFunction = some f → f ≠ "" → jsCaller st = some f)
    ∧ (∀ (st : JSState) (c : String), jsTruthy st.currentMethod = false →
        jsTruthy st.currentFunction = false → st.currentClass = some c →
        jsCaller st = some c)
    ∧ (∀ (st : JSState) (n : Nat) (line : List Char), st.currentMethod = none →
        st.currentFunction = none → st.currentClass = none →
        jsCallEdges st n line = [] ∧ jsNewEdges st n line = [])
    ∧ (∀ (st : PhpState) (line : Nat) (prev : Option PhpTok) (rest : List PhpTok)
        (e : EdgeRec),
        e ∈ phpNewHandle st line rest ++ phpDColonHandle st line prev rest ++
            phpObjHandle st line rest →
        phpTruthy (phpCaller st) = true ∧ e.source = phpStr (phpCaller st))
    ∧ (∀ (st : PhpState) (m : String), st.currentMethod = some m → m ≠ "" →
        phpCaller st = some m)
    ∧ (∀ (st : PhpState) (f : String), phpTruthy st.currentMethod = false →
        st.currentFunction = some f → f ≠ "" → phpCaller st = some f)
    ∧ (∀ (st : PhpState) (c : String), phpTruthy st.currentMethod = false →
        phpTruthy st.currentFunction = false → st.currentClass = some c →
        phpCaller st = some c)
    ∧ (∀ (st : PhpState) (line : Nat) (prev : Option PhpTok) (rest : List PhpTok),
        st.currentMethod = none → st.currentFunction = none → st.currentClass = none →
        phpNewHandle st line rest = [] ∧ phpDColonHandle st line prev rest = [] ∧
          phpObjHandle st line rest = []) := by
  refine ⟨?_, jsCaller_method, jsCaller_function, jsCaller_class, ?_, ?_,
    phpCaller_method, phpCaller_function, phpCaller_class, ?_⟩
  · intro st n line e he
    rcases List.mem_append.mp he with he | he
    · rcases jsCallEdges_mem st n line e he with ⟨h1, h2, -⟩
      exact ⟨h1, h2⟩
    · rcases jsNewEdges_mem st n line e he with ⟨h1, h2, -⟩
      exact ⟨h1, h2⟩
  · intro st n line hm hf hc
    have h : jsTruthy (jsCaller st) = false := by
      rw [jsCaller_none st hm hf hc]
      rfl
    exact ⟨jsCallEdges_nil st n line h, jsNewEdges_nil st n line h⟩
  · intro st line prev rest e he
    rcases List.mem_append.mp he with he | he
    · rcases List.mem_append.mp he with he | he
      · rcases phpNewHandle_mem st line rest e he with ⟨h1, h2, -⟩
        exact ⟨h1, h2⟩
      · rcases phpDColonHandle_mem st line prev rest e he with ⟨h1, h2, -⟩
        exact ⟨h1, h2⟩
    · rcases phpObjHandle_mem st line rest e he with ⟨h1, h2, -⟩
      exact ⟨h1, h2⟩
  · intro st line prev rest hm hf hc
    have h : phpTruthy (phpCaller st) = false := by
      rw [phpCaller_none st hm hf hc]
      rfl
    exact ⟨phpNewHandle_nil st line rest h, phpDColonHandle_nil st line prev rest h,
      phpObjHandle_nil st line rest h⟩

/-- C3 witness: a concrete attributed instantiation and a concrete dropped call. -/
theorem c3_caller_priority_witness :
    (jsTruthy (jsCaller ⟨none, some "f", none, false, 0⟩) = true ∧
      (⟨"f", "Run", "instantiates", 1⟩ : EdgeRec).source
        = jsStr (jsCaller ⟨none, some "f", none, false, 0⟩)) ∧
    (jsCallEdges ⟨none, none, none, false, 0⟩ 1 ("Run(x)").data = [] ∧
      jsNewEdges ⟨none, none, none, false, 0⟩ 1 ("Run(x)").data = []) := by
  constructor
  · exact c3_caller_priority.1 ⟨none, some "f", none, false, 0⟩ 1 ("Run(x)").data
      ⟨"f", "Run", "instantiates", 1⟩ (by decide)
  · exact c3_caller_priority.2.2.2.2.1 ⟨none, none, none, false, 0⟩ 1 ("Run(x)").data
      rfl rfl rfl


/-- C5: a class declaration naming a superclass yields exactly one extends
edge, from the class's qualified identifier to the superclass name at the
declaration line; without a superclass no extends edge is produced.  The JS
statements range over the canonical one-line declaration forms with arbitrary
identifiers; the PHP statements range over arbitrary headers with exactly one
(resp. no) T_EXTENDS clause. -/
theorem c5_extends_edges :
    (∀ (st : JSState) (n : Nat) (C S : List Char),
      C ≠ [] → (∀ x ∈ C, wordChar x = true) → S ≠ [] → (∀ x ∈ S, wordChar x = true) →
      ((processLine st n ('c' :: 'l' :: 'a' :: 's' :: 's' :: ' ' ::
          (C ++ ' ' :: 'e' :: 'x' :: 't' :: 'e' :: 'n' :: 'd' :: 's' :: ' ' ::
            (S ++ [' ', '\x7b'])))).2.edges.filter (fun e => e.type == "extends"))
        = [⟨C.asString, S.asString, "extends", n⟩])
    ∧ (∀ (st : JSState) (n : Nat) (C : List Char),
      C ≠ [] → (∀ x ∈ C, wordChar x = true) →
      ((processLine st n ('c' :: 'l' :: 'a' :: 's' :: 's' :: ' ' ::
          (C ++ [' ', '\x7b']))).2.edges.filter (fun e => e.type == "extends")) = [])
    ∧ (∀ (before : List PhpTok) (prev : Option PhpTok) (st : PhpState) (txt : String)
        (line : Nat) (wsA : List PhpTok), (∀ u ∈ wsA, arrNonStr u) →
        ∀ (nm : String) (nl : Nat) (u1 : List PhpTok), (∀ u ∈ u1, notBraceExt u) →
        ∀ (a : String) (b : Nat) (u2 : List PhpTok), (∀ u ∈ u2, arrNonStr u) →
        ∀ (sup : String) (sl : Nat) (u3 : List PhpTok), (∀ u ∈ u3, notBraceExt u) →
        ∀ (tail : List PhpTok),
        phpStepTok before prev st (PhpTok.arr .T_CLASS txt line)
          (wsA ++ PhpTok.arr .T_STRING nm nl ::
            (u1 ++ PhpTok.arr .T_EXTENDS a b ::
              (u2 ++ PhpTok.arr .T_STRING sup sl :: (u3 ++ PhpTok.ch "\x7b" :: tail))))
          = ({ st with currentClass := some (phpQualify st.ns nm) },
             ⟨[⟨phpQualify st.ns nm, line⟩], [], [],
              [⟨phpQualify st.ns nm, sup, "extends", line⟩]⟩))
    ∧ (∀ (before : List PhpTok) (prev : Option PhpTok) (st : PhpState) (txt : String)
        (line : Nat) (wsA : List PhpTok), (∀ u ∈ wsA, arrNonStr u) →
        ∀ (nm : String) (nl : Nat) (u0 : List PhpTok), (∀ u ∈ u0, notBraceExt u) →
        ∀ (tail : List PhpTok),
        phpStepTok before prev st (PhpTok.arr .T_CLASS txt line)
          (wsA ++ PhpTok.arr .T_STRING nm nl :: (u0 ++ PhpTok.ch "\x7b" :: tail))
          = ({ st with currentClass := some (phpQualify st.ns nm) },
             ⟨[⟨phpQualify st.ns nm, line⟩], [], [], []⟩)) := by
  refine ⟨?_, ?_, ?_, ?_⟩
  · intro st n C S hC hCw hS hSw
    unfold processLine
    dsimp only
    rw [classScan_ext_line C S hC hCw hS hSw]
    rw [jsClassSection_single_ext]
    dsimp only
    rw [List.filter_append, List.filter_append]
    rw [jsCallEdges_filter_extends, jsNewEdges_filter_extends]
    simp
  · intro st n C hC hCw
    unfold processLine
    dsimp only
    rw [classScan_plain_line C hC hCw]
    rw [jsClassSection_single_plain]
    dsimp only
    rw [List.filter_append, List.filter_append]
    rw [jsCallEdges_filter_extends, jsNewEdges_filter_extends]
    simp
  · intro before prev st txt line wsA hA nm nl u1 h1 a b u2 h2 sup sl u3 h3 tail
    rw [phpStepTok_class]
    exact phpClassHandle_ext st line wsA hA nm nl u1 h1 a b u2 h2 sup sl u3 h3 tail
  · intro before prev st txt line wsA hA nm nl u0 h0 tail
    rw [phpStepTok_class]
    exact phpClassHandle_plain st line wsA hA nm nl u0 h0 tail

/-- C5 witness: `class Dog extends Animal \x7b` in both families. -/
theorem c5_extends_edges_witness :
    ((processLine jsInit 1 ('c' :: 'l' :: 'a' :: 's' :: 's' :: ' ' ::
        ("Dog".data ++ ' ' :: 'e' :: 'x' :: 't' :: 'e' :: 'n' :: 'd' :: 's' :: ' ' ::
          ("Animal".data ++ [' ', '\x7b'])))).2.edges.filter
        (fun e => e.type == "extends"))
      = [⟨("Dog".data).asString, ("Animal".data).asString, "extends", 1⟩]
    ∧ phpStepTok [] none phpInit (PhpTok.arr .T_CLASS "class" 2)
        ([PhpTok.arr .T_WHITESPACE " " 2] ++ PhpTok.arr .T_STRING "Dog" 2 ::
          ([PhpTok.arr .T_WHITESPACE " " 2] ++ PhpTok.arr .T_EXTENDS "extends" 2 ::
            ([PhpTok.arr .T_WHITESPACE " " 2] ++ PhpTok.arr .T_STRING "Animal" 2 ::
              ([PhpTok.arr .T_WHITESPACE " " 2] ++ PhpTok.ch "\x7b" :: []))))
        = ({ phpInit with currentClass := some (phpQualify phpInit.ns "Dog") },
           ⟨[⟨phpQualify phpInit.ns "Dog", 2⟩], [], [],
            [⟨phpQualify phpInit.ns "Dog", "Animal", "extends", 2⟩]⟩) := by
  constructor
  · exact c5_extends_edges.1 jsInit 1 ("Dog".data) ("Animal".data)
      (by decide) (by decide) (by decide) (by decide)
  · exact c5_extends_edges.2.2.1 [] none phpInit "class" 2
      [PhpTok.arr .T_WHITESPACE " " 2] (by intro u hu; simp at hu; subst hu; simp [arrNonStr]) "Dog" 2
      [PhpTok.arr .T_WHITESPACE " " 2] (by intro u hu; simp at hu; subst hu; simp [notBraceExt]) "extends" 2
      [PhpTok.arr .T_WHITESPACE " " 2] (by intro u hu; simp at hu; subst hu; simp [arrNonStr]) "Animal" 2
      [PhpTok.arr .T_WHITESPACE " " 2] (by intro u hu; simp at hu; subst hu; simp [notBraceExt]) []


/-- C10: a `new X()` expression with uppercase `X` matches both the call
regex (identifier-before-paren with no dot) and the new regex, so the line
emits the same instantiates edge twice, and a graph built over these edges
counts both copies toward the target node's in_degree. -/
theorem c10_double_instantiates (st : JSState) (n : Nat) (hd : Char) (tl : List Char)
    (hu : hd.isUpper = true) (hw : ∀ x ∈ hd :: tl, wordChar x = true)
    (hc : jsTruthy (jsCaller st) = true) :
    (processLine st n ('n' :: 'e' :: 'w' :: ' ' :: ((hd :: tl) ++ '(' :: ')' :: []))).2.edges
      = [⟨jsStr (jsCaller st), (hd :: tl).asString, "instantiates", n⟩,
         ⟨jsStr (jsCaller st), (hd :: tl).asString, "instantiates", n⟩]
    ∧ ((buildGraph [⟨(hd :: tl).asString, (hd :: tl).asString, "class", "", n⟩]
          [⟨jsStr (jsCaller st), (hd :: tl).asString, "instantiates", "", n⟩,
           ⟨jsStr (jsCaller st), (hd :: tl).asString, "instantiates", "", n⟩]).nodes.map
        (fun nd => nd.in_degree)) = [2] := by
  constructor
  · unfold processLine
    dsimp only
    rw [classScan_new_line (hd :: tl) (by simp) hw]
    rw [jsClassSection_nil]
    dsimp only
    rw [funcScan_new_line (hd :: tl) (by simp) hw]
    rw [jsFuncSection_nil]
    dsimp only
    rw [jsCallEdges_new_line st n hd tl hu hw hc]
    rw [jsNewEdges_new_line st n (hd :: tl) (by simp) hw hc]
    rfl
  · have hkeys : (assemble
        [⟨(hd :: tl).asString, (hd :: tl).asString, "class", "", n⟩]
        [⟨jsStr (jsCaller st), (hd :: tl).asString, "instantiates", "", n⟩,
         ⟨jsStr (jsCaller st), (hd :: tl).asString, "instantiates", "", n⟩]).map Prod.fst
        = [(hd :: tl).asString] := by
      rw [keys_assemble]
      rfl
    obtain ⟨v, hv⟩ := map_fst_singleton _ _ hkeys
    have hb : lookupNode (buildIndex
        [⟨(hd :: tl).asString, (hd :: tl).asString, "class", "", n⟩]) ((hd :: tl).asString)
        = some ⟨(hd :: tl).asString, (hd :: tl).asString, "class", "", n, 0, 0⟩ := by
      simp [buildIndex, insertNode, lookupNode]
    have hlk : lookupNode (assemble
        [⟨(hd :: tl).asString, (hd :: tl).asString, "class", "", n⟩]
        [⟨jsStr (jsCaller st), (hd :: tl).asString, "instantiates", "", n⟩,
         ⟨jsStr (jsCaller st), (hd :: tl).asString, "instantiates", "", n⟩])
        ((hd :: tl).asString) = some v := by
      rw [hv]
      simp [lookupNode]
    rw [show assemble
        [⟨(hd :: tl).asString, (hd :: tl).asString, "class", "", n⟩]
        [⟨jsStr (jsCaller st), (hd :: tl).asString, "instantiates", "", n⟩,
         ⟨jsStr (jsCaller st), (hd :: tl).asString, "instantiates", "", n⟩]
        = List.foldl applyEdge (buildIndex
            [⟨(hd :: tl).asString, (hd :: tl).asString, "class", "", n⟩])
            [⟨jsStr (jsCaller st), (hd :: tl).asString, "instantiates", "", n⟩,
             ⟨jsStr (jsCaller st), (hd :: tl).asString, "instantiates", "", n⟩] from rfl,
      lookup_foldl_applyEdge, hb] at hlk
    simp only [Option.map_some', Option.some.injEq] at hlk
    rw [show (buildGraph
        [⟨(hd :: tl).asString, (hd :: tl).asString, "class", "", n⟩]
        [⟨jsStr (jsCaller st), (hd :: tl).asString, "instantiates", "", n⟩,
         ⟨jsStr (jsCaller st), (hd :: tl).asString, "instantiates", "", n⟩]).nodes
        = (assemble
        [⟨(hd :: tl).asString, (hd :: tl).asString, "class", "", n⟩]
        [⟨jsStr (jsCaller st), (hd :: tl).asString, "instantiates", "", n⟩,
         ⟨jsStr (jsCaller st), (hd :: tl).asString, "instantiates", "", n⟩]).map Prod.snd
        from rfl, hv]
    simp only [List.map_cons, List.map_nil]
    rw [← hlk]
    simp [addDeg]

/-- C10 witness: `new Sound()` on a line whose caller context is the
function `f`. -/
theorem c10_double_instantiates_witness :
    (processLine ⟨none, some "f", none, false, 0⟩ 1
        ('n' :: 'e' :: 'w' :: ' ' :: (('S' :: ['o', 'u', 'n', 'd']) ++ '(' :: ')' :: []))).2.edges
      = [⟨jsStr (jsCaller ⟨none, some "f", none, false, 0⟩),
          ('S' :: ['o', 'u', 'n', 'd']).asString, "instantiates", 1⟩,
         ⟨jsStr (jsCaller ⟨none, some "f", none, false, 0⟩),
          ('S' :: ['o', 'u', 'n', 'd']).asString, "instantiates", 1⟩]
    ∧ ((buildGraph
          [⟨('S' :: ['o', 'u', 'n', 'd']).asString, ('S' :: ['o', 'u', 'n', 'd']).asString,
            "class", "", 1⟩]
          [⟨jsStr (jsCaller ⟨none, some "f", none, false, 0⟩),
            ('S' :: ['o', 'u', 'n', 'd']).asString, "instantiates", "", 1⟩,
           ⟨jsStr (jsCaller ⟨none, some "f", none, false, 0⟩),
            ('S' :: ['o', 'u', 'n', 'd']).asString, "instantiates", "", 1⟩]).nodes.map
        (fun nd => nd.in_degree)) = [2] :=
  c10_double_instantiates ⟨none, some "f", none, false, 0⟩ 1 'S' ['o', 'u', 'n', 'd']
    (by decide) (by decide) (by decide)


/-- C6 (code bug): the spec says the PHP tracker clears the class context
when the brace depth returns to zero, so in `class A \x7b \x7d function f()
\x7b \x7d` the function `f` would be recorded as a top-level function.  In
the code the reset block is unreachable: the loop `continue`s on every
non-array token before the `$tokens[$i] === chr(125)` test can fire, so
`currentClass` survives the closing brace and `f` is recorded as method
`A::f`, with no top-level function entry. -/
theorem c6_php_reset_dead :
    analyzeFilePhp
      [PhpTok.arr .tOther "<?php" 1, PhpTok.arr .T_WHITESPACE " " 1,
       PhpTok.arr .T_CLASS "class" 1, PhpTok.arr .T_WHITESPACE " " 1,
       PhpTok.arr .T_STRING "A" 1, PhpTok.arr .T_WHITESPACE " " 1,
       PhpTok.ch "\x7b", PhpTok.arr .T_WHITESPACE " " 1, PhpTok.ch "\x7d",
       PhpTok.arr .T_WHITESPACE " " 1,
       PhpTok.arr .T_FUNCTION "function" 2, PhpTok.arr .T_WHITESPACE " " 2,
       PhpTok.arr .T_STRING "f" 2, PhpTok.ch "(", PhpTok.ch ")",
       PhpTok.arr .T_WHITESPACE " " 2, PhpTok.ch "\x7b", PhpTok.ch "\x7d"]
      = ⟨[⟨"A", 1⟩], [⟨"A::f", 2⟩], [], []⟩
    ∧ (phpLoop [] none phpInit
      [PhpTok.arr .tOther "<?php" 1, PhpTok.arr .T_WHITESPACE " " 1,
       PhpTok.arr .T_CLASS "class" 1, PhpTok.arr .T_WHITESPACE " " 1,
       PhpTok.arr .T_STRING "A" 1, PhpTok.arr .T_WHITESPACE " " 1,
       PhpTok.ch "\x7b", PhpTok.arr .T_WHITESPACE " " 1, PhpTok.ch "\x7d",
       PhpTok.arr .T_WHITESPACE " " 1,
       PhpTok.arr .T_FUNCTION "function" 2, PhpTok.arr .T_WHITESPACE " " 2,
       PhpTok.arr .T_STRING "f" 2, PhpTok.ch "(", PhpTok.ch ")",
       PhpTok.arr .T_WHITESPACE " " 2, PhpTok.ch "\x7b", PhpTok.ch "\x7d"]).1.currentClass
      = some "A" := by
  decide

/-- C7 counterexample: a PHP method call `$d->speak()` inside function `f`
yields the wildcard target `*::speak`, not the `*.speak` the spec claims for
both analyzers. -/
theorem c7_php_wildcard_counterexample :
    (analyzeFilePhp
      [PhpTok.arr .T_FUNCTION "function" 1, PhpTok.arr .T_WHITESPACE " " 1,
       PhpTok.arr .T_STRING "f" 1, PhpTok.ch "(", PhpTok.ch ")",
       PhpTok.arr .T_WHITESPACE " " 1, PhpTok.ch "\x7b",
       PhpTok.arr .tOther "$d" 2, PhpTok.arr .T_OBJECT_OPERATOR "->" 2,
       PhpTok.arr .T_STRING "speak" 2, PhpTok.ch "(", PhpTok.ch ")", PhpTok.ch ";",
       PhpTok.ch "\x7d"]).edges
      = [⟨"f", "*::speak", "method_call", 2⟩]
    ∧ ("*::speak" : String) ≠ "*.speak" := by
  decide

/-- C7 (amended): an unresolved-receiver method call produces a wildcard
method_call edge whose target prefixes the member name with `*.` in the JS
analyzer but with `*::` in the PHP analyzer. -/
theorem c7_wildcard_targets :
    (∀ (st : JSState) (n : Nat) (line : List Char) (w : List Char),
      (true, w) ∈ callScan line → jsTruthy (jsCaller st) = true →
      (w.asString == "console") = false → (w.asString == "require") = false →
      (w.asString == "import") = false →
      (⟨jsStr (jsCaller st), "*." ++ w.asString, "method_call", n⟩ : EdgeRec) ∈
        jsCallEdges st n line)
    ∧ (∀ (st : PhpState) (line : Nat) (mn : String) (ml : Nat) (rest2 : List PhpTok),
      phpTruthy (phpCaller st) = true →
      phpObjHandle st line (PhpTok.arr .T_STRING mn ml :: rest2)
        = [⟨phpStr (phpCaller st), "*::" ++ mn, "method_call", line⟩]) := by
  constructor
  · intro st n line w hmem hc h1 h2 h3
    unfold jsCallEdges
    refine List.mem_filterMap.mpr ⟨(true, w), hmem, ?_⟩
    dsimp only
    rw [hc, h1, h2, h3]
    rfl
  · intro st line mn ml rest2 hc
    unfold phpObjHandle
    simp [hc]

/-- C7 witness: `d.speak()` in JS function `f`, `$d->speak()` in PHP
function `f`. -/
theorem c7_wildcard_targets_witness :
    (⟨jsStr (jsCaller ⟨none, some "f", none, false, 0⟩),
      "*." ++ ("speak".data).asString, "method_call", 2⟩ : EdgeRec) ∈
      jsCallEdges ⟨none, some "f", none, false, 0⟩ 2 ("d.speak()").data
    ∧ phpObjHandle ⟨"", none, none, some "f"⟩ 2
        (PhpTok.arr .T_STRING "speak" 2 :: [PhpTok.ch "("])
        = [⟨phpStr (phpCaller ⟨"", none, none, some "f"⟩), "*::" ++ "speak",
            "method_call", 2⟩] := by
  constructor
  · exact c7_wildcard_targets.1 ⟨none, some "f", none, false, 0⟩ 2 ("d.speak()").data
      ("speak".data) (by decide) (by decide) (by decide) (by decide) (by decide)
  · exact c7_wildcard_targets.2 ⟨"", none, none, some "f"⟩ 2 "speak" 2 [PhpTok.ch "("]
      (by decide)

/-- C9 counterexample: in PHP, `function f()\x7b\x7d class A \x7b function
m()\x7b\x7d \x7d new B();` puts the `new B()` at the top level after the
class body, yet the emitted edge is attributed to `A::m`, not to the most
recently declared function `f`: the tracker's method context is never
cleared, and the method takes priority over the function. -/
theorem c9_lexical_counterexample :
    (analyzeFilePhp
      [PhpTok.arr .T_FUNCTION "function" 1, PhpTok.arr .T_WHITESPACE " " 1,
       PhpTok.arr .T_STRING "f" 1, PhpTok.ch "(", PhpTok.ch ")",
       PhpTok.ch "\x7b", PhpTok.ch "\x7d",
       PhpTok.arr .T_WHITESPACE " " 2,
       PhpTok.arr .T_CLASS "class" 2, PhpTok.arr .T_WHITESPACE " " 2,
       PhpTok.arr .T_STRING "A" 2, PhpTok.arr .T_WHITESPACE " " 2,
       PhpTok.ch "\x7b",
       PhpTok.arr .T_FUNCTION "function" 2, PhpTok.arr .T_WHITESPACE " " 2,
       PhpTok.arr .T_STRING "m" 2, PhpTok.ch "(", PhpTok.ch ")",
       PhpTok.ch "\x7b", PhpTok.ch "\x7d",
       PhpTok.ch "\x7d",
       PhpTok.arr .T_WHITESPACE "\n" 3,
       PhpTok.arr .T_NEW "new" 3, PhpTok.arr .T_WHITESPACE " " 3,
       PhpTok.arr .T_STRING "B" 3, PhpTok.ch "(", PhpTok.ch ")", PhpTok.ch ";"]).edges
      = [⟨"A::m", "B", "instantiates", 3⟩]
    ∧ ("A::m" : String) ≠ "f"
    ∧ (analyzeFilePhp
      [PhpTok.arr .T_FUNCTION "function" 1, PhpTok.arr .T_WHITESPACE " " 1,
       PhpTok.arr .T_STRING "f" 1, PhpTok.ch "(", PhpTok.ch ")",
       PhpTok.ch "\x7b", PhpTok.ch "\x7d",
       PhpTok.arr .T_WHITESPACE " " 2,
       PhpTok.arr .T_CLASS "class" 2, PhpTok.arr .T_WHITESPACE " " 2,
       PhpTok.arr .T_STRING "A" 2, PhpTok.arr .T_WHITESPACE " " 2,
       PhpTok.ch "\x7b",
       PhpTok.arr .T_FUNCTION "function" 2, PhpTok.arr .T_WHITESPACE " " 2,
       PhpTok.arr .T_STRING "m" 2, PhpTok.ch "(", PhpTok.ch ")",
       PhpTok.ch "\x7b", PhpTok.ch "\x7d",
       PhpTok.ch "\x7d",
       PhpTok.arr .T_WHITESPACE "\n" 3,
       PhpTok.arr .T_NEW "new" 3, PhpTok.arr .T_WHITESPACE " " 3,
       PhpTok.arr .T_STRING "B" 3, PhpTok.ch "(", PhpTok.ch ")", PhpTok.ch ";"]).functions
      = [⟨"f", 1⟩] := by
  decide

/-- C9 (amended): once set, the enclosing-function context is never cleared
in either analyzer, and whenever the tracker's method context is unset a
call edge is attributed to that function; but the method context can outlive
the lexical class body, in which case it still takes priority. -/
theorem c9_function_persistence :
    (∀ (lines : List (List Char)) (st : JSState) (n : Nat),
      st.currentFunction.isSome = true →
      ((runLines st n lines).1.currentFunction).isSome = true)
    ∧ (∀ (toks : List PhpTok) (before : List PhpTok) (prev : Option PhpTok) (st : PhpState),
      st.currentFunction.isSome = true →
      ((phpLoop before prev st toks).1.currentFunction).isSome = true)
    ∧ (∀ (st : JSState) (f : String) (n : Nat) (line : List Char) (e : EdgeRec),
      jsTruthy st.currentMethod = false → st.currentFunction = some f → f ≠ "" →
      e ∈ jsCallEdges st n line ++ jsNewEdges st n line → e.source = f)
    ∧ (∀ (st : PhpState) (f : String) (line : Nat) (rest : List PhpTok) (e : EdgeRec),
      phpTruthy st.currentMethod = false → st.currentFunction = some f → f ≠ "" →
      e ∈ phpNewHandle st line rest → e.source = f) := by
  refine ⟨?_, ?_, ?_, ?_⟩
  · intro lines st n h
    exact runLines_function_isSome lines st n h
  · intro toks before prev st h
    exact phpLoop_function_isSome toks before prev st h
  · intro st f n line e hm hf hne he
    have hcal : jsCaller st = some f := jsCaller_function st f hm hf hne
    rcases List.mem_append.mp he with h1 | h1
    · rcases jsCallEdges_mem st n line e h1 with ⟨-, hsrc, -⟩
      rw [hsrc, hcal]
      rfl
    · rcases jsNewEdges_mem st n line e h1 with ⟨-, hsrc, -⟩
      rw [hsrc, hcal]
      rfl
  · intro st f line rest e hm hf hne he
    have hcal : phpCaller st = some f := phpCaller_function st f hm hf hne
    rcases phpNewHandle_mem st line rest e he with ⟨-, hsrc, -⟩
    rw [hsrc, hcal]
    rfl

/-- C9 witness: a one-line JS file inside function `f`, and a PHP `new
Dog()` inside function `f`. -/
theorem c9_function_persistence_witness :
    ((runLines ⟨none, some "f", none, false, 0⟩ 1 [("x(y)").data]).1.currentFunction).isSome
      = true
    ∧ ((phpLoop [] none ⟨"", none, none, some "f"⟩
        [PhpTok.ch ";"]).1.currentFunction).isSome = true
    ∧ (∀ e : EdgeRec,
      e ∈ jsCallEdges ⟨none, some "f", none, false, 0⟩ 1 ("x(y)").data ++
          jsNewEdges ⟨none, some "f", none, false, 0⟩ 1 ("x(y)").data → e.source = "f")
    ∧ (∀ e : EdgeRec,
      e ∈ phpNewHandle ⟨"", none, none, some "f"⟩ 2
          [PhpTok.arr .T_STRING "Dog" 2, PhpTok.ch "("] → e.source = "f") := by
  refine ⟨?_, ?_, ?_, ?_⟩
  · exact c9_function_persistence.1 [("x(y)").data] ⟨none, some "f", none, false, 0⟩ 1
      (by decide)
  · exact c9_function_persistence.2.1 [PhpTok.ch ";"] [] none ⟨"", none, none, some "f"⟩
      (by decide)
  · intro e he
    exact c9_function_persistence.2.2.1 ⟨none, some "f", none, false, 0⟩ "f" 1
      ("x(y)").data e (by decide) (by decide) (by decide) he
  · intro e he
    exact c9_function_persistence.2.2.2 ⟨"", none, none, some "f"⟩ "f" 2
      [PhpTok.arr .T_STRING "Dog" 2, PhpTok.ch "("] e (by decide) (by decide) (by decide) he


theorem scanGo_mem_tf {α σ : Type} (tf : List Char → Option (α × List Char))
    (upd : σ → Char → σ) :
    ∀ (fuel : Nat) (s : σ) (cs : List Char) (p : σ × α),
      p ∈ scanGo tf upd fuel s cs → ∃ cs2 r, tf cs2 = some (p.2, r) := by
  intro fuel
  induction fuel with
  | zero =>
    intro s cs p h
    simp [scanGo] at h
  | succ f ih =>
    intro s cs p h
    cases cs with
    | nil => simp [scanGo] at h
    | cons c rest =>
      cases htf : tf (c :: rest) with
      | some wr =>
        obtain ⟨w, r⟩ := wr
        simp only [scanGo, htf] at h
        rcases List.mem_cons.mp h with rfl | h2
        · exact ⟨c :: rest, r, htf⟩
        · exact ih s r p h2
      | none =>
        simp only [scanGo, htf] at h
        exact ih (upd s c) rest p h

theorem takeWord_words : ∀ (cs : List Char), ∀ c ∈ (takeWord cs).1, wordChar c = true := by
  intro cs
  induction cs with
  | nil =>
    intro c hc
    simp [takeWord] at hc
  | cons a rest ih =>
    intro c hc
    by_cases hw : wordChar a = true
    · simp only [takeWord, hw, if_true] at hc
      rcases List.mem_cons.mp hc with rfl | h2
      · exact hw
      · exact ih c h2
    · rw [Bool.not_eq_true] at hw
      simp [takeWord, hw] at hc

theorem tryCall_words (cs w r : List Char) (h : tryCall cs = some (w, r)) :
    w ≠ [] ∧ ∀ c ∈ w, wordChar c = true := by
  unfold tryCall at h
  dsimp only at h
  by_cases he : (takeWord cs).1.isEmpty = true
  · rw [if_pos he] at h
    exact absurd h (by simp)
  · rw [if_neg he] at h
    cases hs : skipWs (takeWord cs).2 with
    | nil =>
      rw [hs] at h
      exact absurd h (by simp)
    | cons c rest =>
      rw [hs] at h
      dsimp only at h
      by_cases hp : c = '('
      · rw [if_pos hp] at h
        simp only [Option.some.injEq, Prod.mk.injEq] at h
        obtain ⟨h1, h2⟩ := h
        subst h1
        constructor
        · intro hnil
          exact he (by rw [hnil]; rfl)
        · exact takeWord_words cs
      · rw [if_neg hp] at h
        exact absurd h (by simp)

theorem callScan_mem_words (line : List Char) (d : Bool) (w : List Char)
    (h : (d, w) ∈ callScan line) : w ≠ [] ∧ ∀ c ∈ w, wordChar c = true := by
  unfold callScan at h
  obtain ⟨cs2, r, htf⟩ := scanGo_mem_tf _ _ _ _ _ _ h
  exact tryCall_words cs2 w r htf

theorem word_asString_ne (w : List Char) (hw : ∀ c ∈ w, wordChar c = true)
    (s : String) (hs : ('*' : Char) ∈ s.toList) : w.asString ≠ s := by
  intro h
  have hw2 : w = s.toList := by
    have h2 := congrArg String.toList h
    rwa [List.toList_asString] at h2
  exact absurd (hw '*' (by rw [hw2]; exact hs)) (by decide)

theorem star_target_ne_word (a : String) (s : String)
    (hs : s.toList.head? ≠ some '*') : ("*." ++ a) ≠ s := by
  intro h
  apply hs
  rw [← h]
  rfl

theorem star_append_inj (a b : String) (h : ("*." ++ a) = ("*." ++ b)) : a = b := by
  have h2 := congrArg String.data h
  rw [String.data_append, String.data_append] at h2
  exact String.ext (List.append_cancel_left h2)

/-- C8 counterexample: on `console.log(x)` inside function `f` the scanner
does emit an edge — the matched identifier is `log` with a dot before it,
so the suppression test on `console` never fires and the wildcard
method_call `*.log` is produced. -/
theorem c8_console_counterexample :
    (processLine ⟨none, some "f", none, false, 0⟩ 1 ("console.log(x)").data).2.edges
      = [⟨"f", "*.log", "method_call", 1⟩]
    ∧ ([⟨"f", "*.log", "method_call", 1⟩] : List EdgeRec) ≠ [] := by
  decide

/-- C8 (amended): the call-expression suppression only compares the matched
identifier itself against `console`/`require`/`import`, so no emitted call
edge ever has one of these six targets: the three bare names or their `*.`
wildcard forms.  Member calls on such receivers (e.g. `console.log`) still
emit a wildcard edge for the member name. -/
theorem c8_suppressed_builtins (st : JSState) (n : Nat) (line : List Char) (e : EdgeRec)
    (h : e ∈ jsCallEdges st n line) :
    e.target ≠ "console" ∧ e.target ≠ "require" ∧ e.target ≠ "import" ∧
    e.target ≠ "*.console" ∧ e.target ≠ "*.require" ∧ e.target ≠ "*.import" := by
  rcases jsCallEdges_mem st n line e h with ⟨-, -, w, hscan, hc1, hc2, hc3, hty⟩
  obtain ⟨d, hd⟩ := hscan
  obtain ⟨hne, hw⟩ := callScan_mem_words line d w hd
  rcases hty with ⟨-, htg⟩ | ⟨-, htg⟩
  · rw [htg]
    refine ⟨star_target_ne_word _ _ (by decide), star_target_ne_word _ _ (by decide),
      star_target_ne_word _ _ (by decide), ?_, ?_, ?_⟩
    · intro hE
      exact beq_eq_false_iff_ne.mp hc1 (star_append_inj _ _ (by rw [hE]; rfl))
    · intro hE
      exact beq_eq_false_iff_ne.mp hc2 (star_append_inj _ _ (by rw [hE]; rfl))
    · intro hE
      exact beq_eq_false_iff_ne.mp hc3 (star_append_inj _ _ (by rw [hE]; rfl))
  · rw [htg]
    exact ⟨beq_eq_false_iff_ne.mp hc1, beq_eq_false_iff_ne.mp hc2,
      beq_eq_false_iff_ne.mp hc3,
      word_asString_ne w hw "*.console" (by decide),
      word_asString_ne w hw "*.require" (by decide),
      word_asString_ne w hw "*.import" (by decide)⟩

/-- C8 witness: the `*.log` edge emitted for `console.log(x)` avoids all six
suppressed targets. -/
theorem c8_suppressed_builtins_witness :
    (⟨"f", "*.log", "method_call", 1⟩ : EdgeRec).target ≠ "console" ∧
    (⟨"f", "*.log", "method_call", 1⟩ : EdgeRec).target ≠ "require" ∧
    (⟨"f", "*.log", "method_call", 1⟩ : EdgeRec).target ≠ "import" ∧
    (⟨"f", "*.log", "method_call", 1⟩ : EdgeRec).target ≠ "*.console" ∧
    (⟨"f", "*.log", "method_call", 1⟩ : EdgeRec).target ≠ "*.require" ∧
    (⟨"f", "*.log", "method_call", 1⟩ : EdgeRec).target ≠ "*.import" :=
  c8_suppressed_builtins ⟨none, some "f", none, false, 0⟩ 1 ("console.log(x)").data
    ⟨"f", "*.log", "method_call", 1⟩ (by decide)

end SecScanner
